import Mathlib

/-!
Verification of the shortest-path core (`src/dijkstra.rs`): a shallow embedding
of `dijkstra`, `invert_adjecency_list`, `check_stop`, `dijkstra_step` and
`dijkstra_bidir`, together with theorems about the properties claimed for them.

Machine integers (`usize`) are modelled as `Nat`; the sentinel `usize::MAX`
is the explicit constant `usizeMax`.  Fallible vector indexing is modelled by
`Option`-returning lookups, with a distinguished out-of-bounds outcome, so that
the in-bounds claims are statable.  Loops are modelled with an explicit fuel
parameter that is no smaller than a strictly decreasing measure of the loop
state, with a distinguished fuel-exhaustion outcome proved unreachable.
-/

/-- `usize::MAX`, the sentinel the source uses for "infinity". -/
def usizeMax : Nat := 2 ^ 64 - 1

/-- `usize` addition wraps modulo `2^64` (release semantics; debug builds
panic instead of wrapping).  Every addition the source performs on costs is
modelled through this wrap. -/
def wrapU (n : Nat) : Nat := n % 2 ^ 64

/-- The `Edge` struct of the source: target node id and edge cost. -/
structure Edge where
  node : Nat
  cost : Nat
deriving DecidableEq

/-- The `State` struct of the source: accumulated cost and node position. -/
structure State where
  cost : Nat
  position : Nat
deriving DecidableEq

/-- The `Ord` instance of `State` from the source: the comparison on costs is
flipped (so the max-heap becomes a min-heap on costs), and ties are broken by
comparing `position` (not flipped). -/
def stateCmp (a b : State) : Ordering :=
  (compare b.cost a.cost).then (compare a.position b.position)

/-- The greatest element of a `BinaryHeap` with respect to `stateCmp`, i.e.
what `peek` returns: the entry of least cost, ties broken towards the largest
position.  The heap is modelled as the list of its entries. -/
def heapTop : List State → Option State
  | [] => none
  | s :: rest => some (rest.foldl (fun m x => if stateCmp m x = .lt then x else m) s)

/-- `BinaryHeap::pop`: remove and return the greatest element w.r.t. `stateCmp`. -/
def heapPop (h : List State) : Option (State × List State) :=
  match heapTop h with
  | none => none
  | some m => some (m, h.erase m)

/-- The inner relaxation loop shared by `dijkstra` and `dijkstra_step`:
for each outgoing edge of the popped node, if `cost + edge.cost` improves
the distance-table entry of the target, push the new state and update the
table.  `none` signals an out-of-bounds distance-table read. -/
def relaxEdges (cost : Nat) : List Edge → List State → List Nat → Option (List State × List Nat)
  | [], heap, dist => some (heap, dist)
  | e :: es, heap, dist =>
    match dist.get? e.node with
    | none => none
    | some dv =>
      if wrapU (cost + e.cost) < dv then
        relaxEdges cost es (⟨wrapU (cost + e.cost), e.node⟩ :: heap)
          (dist.set e.node (wrapU (cost + e.cost)))
      else relaxEdges cost es heap dist

/-- Outcome of a run: a normal result, an out-of-bounds vector index (a Rust
panic), or fuel exhaustion (proved unreachable for the chosen fuel). -/
inductive DOut
  | ok (r : Option Nat)
  | oob
  | fuelOut
deriving DecidableEq

/-- Outcome of one iteration of the `dijkstra` loop: either the function
returns, or the loop continues with updated heap and distance table. -/
inductive IterOut
  | ret (r : DOut)
  | cont (heap : List State) (dist : List Nat)
deriving DecidableEq

/-- One iteration of the `while let Some(...) = heap.pop()` loop of `dijkstra`:
pop; return on empty heap; return on a direct hit of `goal`; discard a stale
entry (`cost > dist[position]`); otherwise relax the popped node's edges. -/
def dijkstraIter (g : List (List Edge)) (goal : Nat) (heap : List State)
    (dist : List Nat) : IterOut :=
  match heapPop heap with
  | none => .ret (.ok none)
  | some (s, rest) =>
    if s.position = goal then .ret (.ok (some s.cost))
    else
      match dist.get? s.position with
      | none => .ret .oob
      | some dp =>
        if dp < s.cost then .cont rest dist
        else
          match g.get? s.position with
          | none => .ret .oob
          | some edges =>
            match relaxEdges s.cost edges rest dist with
            | none => .ret .oob
            | some (heap2, dist2) => .cont heap2 dist2

/-- The `while let Some(...) = heap.pop()` loop of `dijkstra`. -/
def dijkstraLoop (g : List (List Edge)) (goal : Nat) :
    Nat → List State → List Nat → DOut
  | 0, _, _ => .fuelOut
  | fuel + 1, heap, dist =>
    match dijkstraIter g goal heap dist with
    | .ret r => r
    | .cont heap2 dist2 => dijkstraLoop g goal fuel heap2 dist2

/-- Fuel for the `dijkstra` loop: the sum of the initial distance table plus
(initial heap size =) one, plus one; an upper bound on the iteration count
since `dist.sum + heap.length` strictly decreases each iteration. -/
def dijkstraFuel (dist : List Nat) : Nat := dist.sum + 2

/-- `dijkstra(adj_list, start, goal)` from the source. -/
def dijkstra (g : List (List Edge)) (start goal : Nat) : DOut :=
  let dist0 := (List.replicate g.length usizeMax).set start 0
  if start < g.length then
    dijkstraLoop g goal (dijkstraFuel dist0) [⟨0, start⟩] dist0
  else .oob

/-- Inner loop of `invert_adjecency_list`: insert the reversal of each edge of
node `i` into its bucket.  `none` signals an out-of-bounds bucket index. -/
def invertInner (i : Nat) : List Edge → List (List Edge) → Option (List (List Edge))
  | [], acc => some acc
  | e :: es, acc =>
    match acc.get? e.node with
    | none => none
    | some bucket => invertInner i es (acc.set e.node (bucket ++ [⟨i, e.cost⟩]))

/-- Outer loop of `invert_adjecency_list` over the enumerated adjacency lists. -/
def invertOuter : List (List Edge) → Nat → List (List Edge) → Option (List (List Edge))
  | [], _, acc => some acc
  | l :: ls, i, acc =>
    match invertInner i l acc with
    | none => none
    | some acc2 => invertOuter ls (i + 1) acc2

/-- `invert_adjecency_list` from the source: start from `len` empty buckets and
push the reversal `node → i` of every edge `i → node`. -/
def invert_adjecency_list (g : List (List Edge)) : Option (List (List Edge)) :=
  invertOuter g 0 (List.replicate g.length [])

/-- `dijkstra_step` from the source: pop one entry; return on a direct hit of
`goal`; otherwise relax the popped node's outgoing edges (the source performs
no staleness check here).  The result is `(returned value, heap, dist)`,
`none` signalling an out-of-bounds index. -/
def dijkstra_step (adj : List (List Edge)) (goal : Nat) (heap : List State)
    (dist : List Nat) : Option (Option Nat × List State × List Nat) :=
  match heapPop heap with
  | none => some (none, heap, dist)
  | some (s, rest) =>
    if s.position = goal then some (some s.cost, rest, dist)
    else
      match adj.get? s.position with
      | none => none
      | some edges =>
        match relaxEdges s.cost edges rest dist with
        | none => none
        | some (heap2, dist2) => some (none, heap2, dist2)

/-- The `for i in 0..dist_f.len()` scan of `check_stop`, with `k` the number of
remaining indices.  Skips nodes lacking a finite entry in either table; returns
the first sum `dist_f[i] + dist_b[i]` that is at most `bd`.  The outer `none`
signals an out-of-bounds read of `dist_b`. -/
def checkScan (df db : List Nat) (bd : Nat) : Nat → Nat → Option (Option Nat)
  | _, 0 => some none
  | i, k + 1 =>
    match df.get? i with
    | none => none
    | some a =>
      if a = usizeMax then checkScan df db bd (i + 1) k
      else
        match db.get? i with
        | none => none
        | some b =>
          if b = usizeMax then checkScan df db bd (i + 1) k
          else if wrapU (a + b) ≤ bd then some (some (wrapU (a + b)))
          else checkScan df db bd (i + 1) k

/-- `check_stop` from the source: peek both frontiers (no pop); if both are
non-empty, scan all node ids and return the first `dist_f[i] + dist_b[i]`
whose entries are both finite and whose sum is at most the sum of the two
peeked costs. -/
def check_stop (df db : List Nat) (pf pb : List State) : Option (Option Nat) :=
  match heapTop pf, heapTop pb with
  | some f, some b => checkScan df db (wrapU (f.cost + b.cost)) 0 df.length
  | _, _ => some none

/-- The mutable state of `dijkstra_bidir`: the two distance tables and the two
priority frontiers. -/
structure BState where
  dist_f : List Nat
  dist_b : List Nat
  prio_f : List State
  prio_b : List State
deriving DecidableEq

/-- Outcome of one half-round (one `dijkstra_step` plus one `check_stop`):
either the enclosing function returns `Some r`, or the loop continues in a new
state, or an index was out of bounds. -/
inductive HalfOut
  | ret (r : Nat)
  | cont (st : BState)
  | oob
deriving DecidableEq

/-- The forward half-round of the `dijkstra_bidir` loop body. -/
def halfF (g : List (List Edge)) (goal : Nat) (st : BState) : HalfOut :=
  match dijkstra_step g goal st.prio_f st.dist_f with
  | none => .oob
  | some (some r, _, _) => .ret r
  | some (none, pf2, df2) =>
    match check_stop df2 st.dist_b pf2 st.prio_b with
    | none => .oob
    | some (some v) => .ret v
    | some none => .cont ⟨df2, st.dist_b, pf2, st.prio_b⟩

/-- The backward half-round of the `dijkstra_bidir` loop body. -/
def halfB (gInv : List (List Edge)) (start : Nat) (st : BState) : HalfOut :=
  match dijkstra_step gInv start st.prio_b st.dist_b with
  | none => .oob
  | some (some r, _, _) => .ret r
  | some (none, pb2, db2) =>
    match check_stop st.dist_f db2 st.prio_f pb2 with
    | none => .oob
    | some (some v) => .ret v
    | some none => .cont ⟨st.dist_f, db2, st.prio_f, pb2⟩

/-- Outcome of the `dijkstra_bidir` loop, recording the final state when the
loop terminates by exhaustion (the function then returns `None`). -/
inductive BidirOut
  | found (r : Nat)
  | exhausted (final : BState)
  | oob
  | fuelOut
deriving DecidableEq

/-- The `while !prio_b.is_empty() || !prio_b.is_empty()` loop of
`dijkstra_bidir`; the guard tests `prio_b` twice, exactly as the source does. -/
def bidirLoop (g gInv : List (List Edge)) (start goal : Nat) :
    Nat → BState → BidirOut
  | 0, _ => .fuelOut
  | fuel + 1, st =>
    if st.prio_b.isEmpty = false ∨ st.prio_b.isEmpty = false then
      match halfF g goal st with
      | .oob => .oob
      | .ret r => .found r
      | .cont st1 =>
        match halfB gInv start st1 with
        | .oob => .oob
        | .ret r => .found r
        | .cont st2 => bidirLoop g gInv start goal fuel st2
    else .exhausted st

/-- Fuel for the `dijkstra_bidir` loop: the decreasing measure
(sum of both distance tables plus both heap sizes) of the initial state,
plus slack. -/
def bidirFuel (st : BState) : Nat :=
  st.dist_f.sum + st.dist_b.sum + st.prio_f.length + st.prio_b.length + 2

/-- `dijkstra_bidir(adj_list, start, goal)` from the source. -/
def dijkstra_bidir (g : List (List Edge)) (start goal : Nat) : DOut :=
  match invert_adjecency_list g with
  | none => .oob
  | some gInv =>
    if start < g.length ∧ goal < g.length then
      let st0 : BState :=
        ⟨(List.replicate g.length usizeMax).set start 0,
         (List.replicate g.length usizeMax).set goal 0,
         [⟨0, start⟩], [⟨0, goal⟩]⟩
      match bidirLoop g gInv start goal (bidirFuel st0) st0 with
      | .found r => .ok (some r)
      | .exhausted _ => .ok none
      | .oob => .oob
      | .fuelOut => .fuelOut
    else .oob

/-! ## Specification-side definitions -/

/-- A graph is valid when every edge target is a node id below the node count
(the caller-established precondition of the source). -/
def ValidGraph (g : List (List Edge)) : Prop :=
  ∀ l ∈ g, ∀ e ∈ l, e.node < g.length

instance : DecidablePred ValidGraph := fun g =>
  inferInstanceAs (Decidable (∀ l ∈ g, ∀ e ∈ l, e.node < g.length))

/-- The adjacency list of node `u` (empty when out of range). -/
def gAt (g : List (List Edge)) (u : Nat) : List Edge := g.getD u []

/-- The distance-table entry of node `v` (the sentinel when out of range). -/
def dAt (d : List Nat) (v : Nat) : Nat := d.getD v usizeMax

/-- `Reach g s v c` holds when there is a directed path from `s` to `v` in `g`
whose edge costs sum to `c`. -/
inductive Reach (g : List (List Edge)) (s : Nat) : Nat → Nat → Prop
  | refl : Reach g s s 0
  | snoc {u c} (e : Edge) (hu : u < g.length) (he : e ∈ gAt g u)
      (hr : Reach g s u c) : Reach g s e.node (c + e.cost)

/-- `c` is the cost of a shortest directed path from `s` to `t` in `g`. -/
def IsShortest (g : List (List Edge)) (s t c : Nat) : Prop :=
  Reach g s t c ∧ ∀ x, Reach g s t x → c ≤ x

/-! ## Basic lemmas: accessors -/

theorem dAt_set_self {d : List Nat} {v a : Nat} (h : v < d.length) :
    dAt (d.set v a) v = a := by
  simp [dAt, List.getD_eq_get?, List.getElem?_set_eq_of_lt _ h]

theorem dAt_set_ne {d : List Nat} {v w a : Nat} (h : v ≠ w) :
    dAt (d.set v a) w = dAt d w := by
  simp [dAt, List.getD_eq_get?, List.getElem?_set_ne h]

theorem get?_eq_dAt {d : List Nat} {v : Nat} (h : v < d.length) :
    d.get? v = some (dAt d v) := by
  simp [dAt, List.getD_eq_get?, List.get?_eq_get h, List.getElem?_eq_getElem h]

theorem getElem?_eq_dAt {d : List Nat} {v : Nat} (h : v < d.length) :
    d[v]? = some (dAt d v) := by
  have := get?_eq_dAt h
  rwa [List.get?_eq_getElem?] at this

theorem dAt_of_ge {d : List Nat} {v : Nat} (h : d.length ≤ v) :
    dAt d v = usizeMax := by
  simp [dAt, List.getD_eq_get?, List.getElem?_eq_none h]

theorem g_get?_eq_gAt {g : List (List Edge)} {u : Nat} (h : u < g.length) :
    g.get? u = some (gAt g u) := by
  simp [gAt, List.getD_eq_get?, List.get?_eq_get h, List.getElem?_eq_getElem h]

theorem g_getElem?_eq_gAt {g : List (List Edge)} {u : Nat} (h : u < g.length) :
    g[u]? = some (gAt g u) := by
  have := g_get?_eq_gAt h
  rwa [List.get?_eq_getElem?] at this

theorem gAt_mem {g : List (List Edge)} {u : Nat} (h : u < g.length) :
    gAt g u ∈ g :=
  List.get?_mem (g_get?_eq_gAt h)

theorem valid_target {g : List (List Edge)} (hg : ValidGraph g) {u : Nat}
    (hu : u < g.length) {e : Edge} (he : e ∈ gAt g u) : e.node < g.length :=
  hg _ (gAt_mem hu) e he

/-! ## Heap order lemmas -/

theorem then_gt (x : Ordering) : Ordering.gt.then x = .gt := rfl

theorem then_lt (x : Ordering) : Ordering.lt.then x = .lt := rfl

theorem then_eq (x : Ordering) : Ordering.eq.then x = x := rfl

theorem stateCmp_lt_iff (a b : State) :
    stateCmp a b = .lt ↔ b.cost < a.cost ∨ (a.cost = b.cost ∧ a.position < b.position) := by
  unfold stateCmp
  rcases Nat.lt_trichotomy a.cost b.cost with h | h | h
  · rw [Nat.compare_eq_gt.mpr h, then_gt]
    constructor
    · intro hc; cases hc
    · omega
  · rw [h, Nat.compare_eq_eq.mpr rfl, then_eq, Nat.compare_eq_lt]
    omega
  · rw [Nat.compare_eq_lt.mpr h, then_lt]
    constructor
    · intro; omega
    · intro; rfl

theorem stateCmp_not_lt_iff (a b : State) :
    stateCmp a b ≠ .lt ↔ a.cost ≤ b.cost ∧ (a.cost = b.cost → b.position ≤ a.position) := by
  rw [Ne, stateCmp_lt_iff]
  omega

theorem stateCmp_not_lt_trans {a b c : State} (h1 : stateCmp a b ≠ .lt)
    (h2 : stateCmp b c ≠ .lt) : stateCmp a c ≠ .lt := by
  rw [stateCmp_not_lt_iff] at h1 h2 ⊢
  omega

theorem foldl_top_spec (l : List State) : ∀ a : State,
    (l.foldl (fun m x => if stateCmp m x = .lt then x else m) a ∈ a :: l) ∧
    ∀ x ∈ a :: l, stateCmp (l.foldl (fun m x => if stateCmp m x = .lt then x else m) a) x ≠ .lt := by
  induction l with
  | nil =>
    intro a
    refine ⟨by simp, ?_⟩
    intro x hx
    simp only [List.foldl_nil]
    simp at hx
    subst hx
    rw [stateCmp_not_lt_iff]
    omega
  | cons y t ih =>
    intro a
    have step : (if stateCmp a y = .lt then y else a) ∈ [a, y] ∧
        stateCmp (if stateCmp a y = .lt then y else a) a ≠ .lt ∧
        stateCmp (if stateCmp a y = .lt then y else a) y ≠ .lt := by
      by_cases hay : stateCmp a y = .lt
      · have hay2 := (stateCmp_lt_iff a y).mp hay
        simp only [if_pos hay]
        refine ⟨by simp, ?_, ?_⟩ <;> (rw [stateCmp_not_lt_iff]; omega)
      · have hay2 := (stateCmp_not_lt_iff a y).mp hay
        simp only [if_neg hay]
        refine ⟨by simp, ?_, ?_⟩ <;> (rw [stateCmp_not_lt_iff]; omega)
    obtain ⟨ihm, ihge⟩ := ih (if stateCmp a y = .lt then y else a)
    constructor
    · simp only [List.foldl_cons]
      rcases List.mem_cons.mp ihm with h | h
      · rw [h]
        by_cases hay : stateCmp a y = .lt
        · simp only [if_pos hay]
          exact List.mem_cons_of_mem _ (List.mem_cons_self _ _)
        · simp only [if_neg hay]
          exact List.mem_cons_self _ _
      · exact List.mem_cons_of_mem _ (List.mem_cons_of_mem _ h)
    · intro x hx
      simp only [List.foldl_cons]
      have base := ihge (if stateCmp a y = .lt then y else a) (by simp)
      rcases List.mem_cons.mp hx with rfl | hx2
      · exact stateCmp_not_lt_trans base step.2.1
      · rcases List.mem_cons.mp hx2 with rfl | hx3
        · exact stateCmp_not_lt_trans base step.2.2
        · exact ihge x (by simp [hx3])

theorem heapTop_spec {h : List State} {m : State} (hm : heapTop h = some m) :
    m ∈ h ∧ ∀ x ∈ h, stateCmp m x ≠ .lt := by
  match h with
  | [] => simp [heapTop] at hm
  | s :: rest =>
    simp only [heapTop, Option.some.injEq] at hm
    obtain ⟨hmem, hge⟩ := foldl_top_spec rest s
    rw [hm] at hmem hge
    exact ⟨hmem, hge⟩

theorem heapTop_none_iff {h : List State} : heapTop h = none ↔ h = [] := by
  cases h <;> simp [heapTop]

theorem heapPop_none_iff {h : List State} : heapPop h = none ↔ h = [] := by
  unfold heapPop
  cases hh : heapTop h
  · simp [heapTop_none_iff.mp hh]
  · simp
    intro he
    rw [he, heapTop_none_iff.mpr rfl] at hh
    cases hh

theorem heapPop_some {h : List State} {m : State} {rest : List State}
    (hp : heapPop h = some (m, rest)) : heapTop h = some m ∧ rest = h.erase m := by
  unfold heapPop at hp
  cases hh : heapTop h <;> rw [hh] at hp
  · cases hp
  · simp at hp
    obtain ⟨h1, h2⟩ := hp
    subst h1
    exact ⟨rfl, h2.symm⟩

/-- What `heapPop` guarantees: the popped entry is a member, the remainder is
the heap with it erased, and it has minimal cost, ties broken towards the
largest position. -/
theorem heapPop_min {h : List State} {m : State} {rest : List State}
    (hp : heapPop h = some (m, rest)) :
    m ∈ h ∧ rest = h.erase m ∧ (∀ x ∈ h, m.cost ≤ x.cost) ∧
      ∀ x ∈ h, m.cost = x.cost → x.position ≤ m.position := by
  obtain ⟨ht, hr⟩ := heapPop_some hp
  obtain ⟨hmem, hge⟩ := heapTop_spec ht
  refine ⟨hmem, hr, ?_, ?_⟩
  · intro x hx
    exact ((stateCmp_not_lt_iff m x).mp (hge x hx)).1
  · intro x hx hc
    exact ((stateCmp_not_lt_iff m x).mp (hge x hx)).2 hc

theorem rest_subset {h : List State} {m : State} {rest : List State}
    (hp : heapPop h = some (m, rest)) : ∀ x ∈ rest, x ∈ h := by
  obtain ⟨-, hr⟩ := heapPop_some hp
  intro x hx
  exact List.erase_subset _ _ (hr ▸ hx)

theorem rest_length {h : List State} {m : State} {rest : List State}
    (hp : heapPop h = some (m, rest)) : rest.length + 1 = h.length := by
  obtain ⟨ht, hr⟩ := heapPop_some hp
  have hmem := (heapTop_spec ht).1
  rw [hr, List.length_erase_of_mem hmem]
  have : 1 ≤ h.length := List.length_pos.mpr (by rintro rfl; simp at hmem)
  omega

theorem mem_rest_of_ne {h : List State} {m : State} {rest : List State}
    (hp : heapPop h = some (m, rest)) {x : State} (hx : x ∈ h) (hne : x ≠ m) :
    x ∈ rest := by
  obtain ⟨-, hr⟩ := heapPop_some hp
  rw [hr]
  exact (List.mem_erase_of_ne hne).mpr hx

/-! ## Claim C4: frontier pop order -/

/-- C4, counterexample: two entries of equal cost 1; the entry with the LARGER
node id (1) is popped first, refuting the claimed ascending-id tie-break. -/
theorem c4_cex_equal_cost_pops_larger_id :
    heapPop [⟨1, 0⟩, ⟨1, 1⟩] = some (⟨1, 1⟩, [⟨1, 0⟩]) ∧
    ¬ ∀ (h : List State) (m : State) (rest : List State), heapPop h = some (m, rest) →
        ∀ x ∈ h, m.cost = x.cost → m.position ≤ x.position := by
  refine ⟨by decide, fun hall => ?_⟩
  have h10 : (⟨1, 0⟩ : State) ∈ [(⟨1, 0⟩ : State), ⟨1, 1⟩] := by decide
  have := hall [⟨1, 0⟩, ⟨1, 1⟩] ⟨1, 1⟩ [⟨1, 0⟩] (by decide) ⟨1, 0⟩ h10 rfl
  simp at this

/-- C4, amended: the frontier pop order is ascending cost with ties broken by
DESCENDING node id (the popped entry has minimal cost, and maximal node id
among entries of equal cost); the popped entry is a member and the remaining
heap is the original with that entry removed, so the pop sequence is a
deterministic function of the heap contents. -/
theorem c4_pop_order_cost_then_descending_id {h : List State} {m : State}
    {rest : List State} (hp : heapPop h = some (m, rest)) :
    m ∈ h ∧ rest = h.erase m ∧ (∀ x ∈ h, m.cost ≤ x.cost) ∧
      ∀ x ∈ h, m.cost = x.cost → x.position ≤ m.position :=
  heapPop_min hp

/-- C4, witness: the amended pop-order theorem at the concrete two-entry heap. -/
theorem c4_witness :
    (⟨1, 1⟩ : State) ∈ [(⟨1, 0⟩ : State), ⟨1, 1⟩] ∧
    [(⟨1, 0⟩ : State)] = [(⟨1, 0⟩ : State), ⟨1, 1⟩].erase ⟨1, 1⟩ ∧
    (∀ x ∈ [(⟨1, 0⟩ : State), ⟨1, 1⟩], (⟨1, 1⟩ : State).cost ≤ x.cost) ∧
    ∀ x ∈ [(⟨1, 0⟩ : State), ⟨1, 1⟩], (⟨1, 1⟩ : State).cost = x.cost →
      x.position ≤ (⟨1, 1⟩ : State).position :=
  c4_pop_order_cost_then_descending_id (by decide)

/-! ## Claim C5: loop guard of `dijkstra_bidir` -/

/-- C5: the loop guard of the source tests `prio_b` twice (a slip for
`prio_f`/`prio_b`), so on this graph the loop exits — and the function returns
`None` — while the forward frontier is still non-empty, contradicting the claim
that the search keeps stepping while either frontier is non-empty. -/
theorem c5_loop_stops_with_forward_frontier_nonempty :
    dijkstra_bidir [[⟨1, 1⟩], [], []] 0 2 = .ok none ∧
    invert_adjecency_list [[⟨1, 1⟩], [], []] = some [[], [⟨0, 1⟩], []] ∧
    bidirLoop [[⟨1, 1⟩], [], []] [[], [⟨0, 1⟩], []] 0 2
        (bidirFuel ⟨[0, usizeMax, usizeMax], [usizeMax, usizeMax, 0], [⟨0, 0⟩], [⟨0, 2⟩]⟩)
        ⟨[0, usizeMax, usizeMax], [usizeMax, usizeMax, 0], [⟨0, 0⟩], [⟨0, 2⟩]⟩ =
      .exhausted ⟨[0, 1, usizeMax], [usizeMax, usizeMax, 0], [⟨1, 1⟩], []⟩ ∧
    ([⟨1, 1⟩] : List State) ≠ [] := by
  refine ⟨by decide, by decide, by decide, by decide⟩

/-! ## Claim C8: start equals goal -/

/-- C8: for any graph and any in-range start node, `dijkstra(g, s, s)` returns
`Some(0)`: the first popped entry is `(0, s)` and it hits the goal at once,
regardless of self-loops or outgoing edges at `s`. -/
theorem c8_start_eq_goal_returns_zero (g : List (List Edge)) (s : Nat)
    (hs : s < g.length) : dijkstra g s s = .ok (some 0) := by
  unfold dijkstra
  simp only [hs, if_true]
  have hfuel : dijkstraFuel ((List.replicate g.length usizeMax).set s 0) =
      ((List.replicate g.length usizeMax).set s 0).sum + 1 + 1 := rfl
  rw [hfuel]
  simp [dijkstraLoop, dijkstraIter, heapPop, heapTop]

/-- C8, witness: at a one-node graph with a self-loop of cost 3. -/
theorem c8_witness : dijkstra [[⟨0, 3⟩]] 0 0 = .ok (some 0) :=
  c8_start_eq_goal_returns_zero [[⟨0, 3⟩]] 0 (by decide)

/-! ## Relaxation lemmas -/

theorem dAt_cons_zero {x : Nat} {t : List Nat} : dAt (x :: t) 0 = x := rfl

theorem dAt_cons_succ {x : Nat} {t : List Nat} {v : Nat} :
    dAt (x :: t) (v + 1) = dAt t v := rfl

theorem sum_set_add : ∀ (d : List Nat) (v a : Nat), v < d.length →
    (d.set v a).sum + dAt d v = d.sum + a := by
  intro d
  induction d with
  | nil => intro v a hv; simp at hv
  | cons x t ih =>
    intro v a hv
    cases v with
    | zero =>
      simp only [List.set, List.sum_cons, dAt_cons_zero]
      omega
    | succ w =>
      simp only [List.set, List.sum_cons, dAt_cons_succ]
      have := ih w a (by simpa using hv)
      omega

theorem sum_set_succ_le {d : List Nat} {v a : Nat} (hv : v < d.length)
    (ha : a < dAt d v) : (d.set v a).sum + 1 ≤ d.sum := by
  have := sum_set_add d v a hv
  omega

theorem wrapU_eq {n : Nat} (h : n < 2 ^ 64) : wrapU n = n := Nat.mod_eq_of_lt h

theorem usizeMax_lt_pow : usizeMax < 2 ^ 64 := by decide

/-! ## The edge-cost budget and the no-overflow side condition -/

/-- The total cost of one adjacency bucket. -/
def bucketCost (l : List Edge) : Nat := (l.map Edge.cost).sum

/-- The sum of every edge cost in the graph. -/
def edgeSum (g : List (List Edge)) : Nat := (g.map bucketCost).sum

/-- The no-overflow side condition on a graph: even the sum of two full
edge-cost budgets stays below `usize::MAX`.  Under it every addition the
engines perform (a recorded label plus an edge weight, or a forward label
plus a backward label) is exact, so the wrapping `usize` model coincides
with unbounded arithmetic. -/
def SmallCosts (g : List (List Edge)) : Prop := edgeSum g + edgeSum g < usizeMax

instance (g : List (List Edge)) : Decidable (SmallCosts g) :=
  decidable_of_iff (edgeSum g + edgeSum g < usizeMax) Iff.rfl

/-- The cost contributed to inverted bucket `v` by one adjacency list. -/
def pc (l : List Edge) (v : Nat) : Nat :=
  (l.filterMap (fun e => if e.node = v then some e.cost else none)).sum

theorem gAt_of_ge {g : List (List Edge)} {u : Nat} (h : g.length ≤ u) :
    gAt g u = [] := by
  rw [gAt, List.getD_eq_get?, List.get?_eq_none.mpr h]
  rfl

theorem edgeSum_eq_range : ∀ h : List (List Edge),
    (Finset.range h.length).sum (fun v => bucketCost (gAt h v)) = edgeSum h := by
  intro h
  induction h with
  | nil => simp [edgeSum]
  | cons l ls ih =>
    rw [List.length_cons, Finset.sum_range_succ']
    have hs : ∀ i, gAt (l :: ls) (i + 1) = gAt ls i := fun i => rfl
    have hz : gAt (l :: ls) 0 = l := rfl
    simp only [hs, hz]
    rw [ih]
    simp only [edgeSum, List.map_cons, List.sum_cons]
    omega

theorem sum_buckets_nodup_le (g : List (List Edge)) (l : List Nat)
    (hl : l.Nodup) :
    (l.map (fun x => bucketCost (gAt g x))).sum ≤ edgeSum g := by
  classical
  have h3 : (Finset.range g.length).sum (fun x => bucketCost (gAt g x)) =
      (l.toFinset ∪ Finset.range g.length).sum (fun x => bucketCost (gAt g x)) := by
    refine Finset.sum_subset (fun a ha => Finset.mem_union_right _ ha) ?_
    intro x _ hnx
    have hge : g.length ≤ x := by
      rcases Nat.lt_or_ge x g.length with hx | hx
      · exact absurd (Finset.mem_range.mpr hx) hnx
      · exact hx
    rw [gAt_of_ge hge]
    rfl
  calc (l.map (fun x => bucketCost (gAt g x))).sum
      = l.toFinset.sum (fun x => bucketCost (gAt g x)) :=
        (List.sum_toFinset _ hl).symm
    _ ≤ (l.toFinset ∪ Finset.range g.length).sum (fun x => bucketCost (gAt g x)) :=
        Finset.sum_le_sum_of_subset (fun a ha => Finset.mem_union_left _ ha)
    _ = (Finset.range g.length).sum (fun x => bucketCost (gAt g x)) := h3.symm
    _ = edgeSum g := edgeSum_eq_range g

/-! ## Dominated path witnesses -/

/-- The path witness behind every label the search writes: `vis` lists the
visited nodes in order (so no node repeats), and the current distance table
dominates the running cost at every visited node.  Such a path draws on each
node's bucket at most once, so its cost is bounded by the edge-cost budget. -/
inductive DomPath (g : List (List Edge)) (s : Nat) (dist : List Nat) :
    Nat → Nat → List Nat → Prop
  | refl (h : dAt dist s = 0) : DomPath g s dist s 0 [s]
  | snoc {u c : Nat} {vis : List Nat} (e : Edge) (hu : u < g.length)
      (he : e ∈ gAt g u) (hnew : e.node ∉ vis)
      (hdom : dAt dist e.node ≤ c + e.cost) (hp : DomPath g s dist u c vis) :
      DomPath g s dist e.node (c + e.cost) (vis ++ [e.node])

theorem dompath_reach {g : List (List Edge)} {s : Nat} {dist : List Nat}
    {v c : Nat} {vis : List Nat} (h : DomPath g s dist v c vis) :
    Reach g s v c := by
  induction h with
  | refl _ => exact Reach.refl
  | snoc e hu he hnew hdom hp ih => exact Reach.snoc e hu he ih

theorem dompath_mem {g : List (List Edge)} {s : Nat} {dist : List Nat}
    {v c : Nat} {vis : List Nat} (h : DomPath g s dist v c vis) : v ∈ vis := by
  induction h with
  | refl _ => exact List.mem_singleton.mpr rfl
  | snoc e hu he hnew hdom hp ih =>
    exact List.mem_append.mpr (.inr (List.mem_singleton.mpr rfl))

theorem dompath_mem_le {g : List (List Edge)} {s : Nat} {dist : List Nat}
    {v c : Nat} {vis : List Nat} (h : DomPath g s dist v c vis) :
    ∀ x ∈ vis, dAt dist x ≤ c := by
  induction h with
  | refl h =>
    intro x hx
    rw [List.mem_singleton.mp hx, h]
  | @snoc u c vis e hu he hnew hdom hp ih =>
    intro x hx
    rcases List.mem_append.mp hx with hx' | hx'
    · exact le_trans (ih x hx') (Nat.le_add_right _ _)
    · rw [List.mem_singleton.mp hx']
      exact hdom

theorem dompath_mono {g : List (List Edge)} {s : Nat} {dist dist' : List Nat}
    (hle : ∀ w, dAt dist' w ≤ dAt dist w) :
    ∀ {v c : Nat} {vis : List Nat},
      DomPath g s dist v c vis → DomPath g s dist' v c vis := by
  intro v c vis h
  induction h with
  | refl h => exact .refl (Nat.le_zero.mp (le_of_le_of_eq (hle s) h))
  | snoc e hu he hnew hdom hp ih =>
    exact .snoc e hu he hnew (le_trans (hle _) hdom) ih

theorem dompath_srcs {g : List (List Edge)} {s : Nat} {dist : List Nat}
    {v c : Nat} {vis : List Nat} (h : DomPath g s dist v c vis) :
    ∃ srcs : List Nat, srcs.Nodup ∧ v ∉ srcs ∧ (∀ x ∈ srcs, x ∈ vis) ∧
      c ≤ (srcs.map (fun x => bucketCost (gAt g x))).sum := by
  induction h with
  | refl _ => exact ⟨[], List.nodup_nil, by simp, by simp, by simp⟩
  | @snoc u c vis e hu he hnew hdom hp ih =>
    obtain ⟨srcs, hnd, hvs, hsub, hle⟩ := ih
    have humem : u ∈ vis := dompath_mem hp
    refine ⟨u :: srcs, List.nodup_cons.mpr ⟨hvs, hnd⟩, ?_, ?_, ?_⟩
    · intro hx
      rcases List.mem_cons.mp hx with hx' | hx'
      · exact hnew (by rw [hx']; exact humem)
      · exact hnew (hsub _ hx')
    · intro x hx
      rcases List.mem_cons.mp hx with rfl | hx'
      · exact List.mem_append.mpr (.inl humem)
      · exact List.mem_append.mpr (.inl (hsub x hx'))
    · have hec : e.cost ≤ bucketCost (gAt g u) := by
        refine List.single_le_sum (fun x _ => Nat.zero_le x) _ ?_
        exact List.mem_map_of_mem Edge.cost he
      rw [List.map_cons, List.sum_cons]
      omega

theorem dompath_cost_le {g : List (List Edge)} {s : Nat} {dist : List Nat}
    {v c : Nat} {vis : List Nat} (h : DomPath g s dist v c vis) :
    c ≤ edgeSum g := by
  obtain ⟨srcs, hnd, -, -, hle⟩ := dompath_srcs h
  exact le_trans hle (sum_buckets_nodup_le g srcs hnd)

theorem dompath_cand_le {g : List (List Edge)} {s : Nat} {dist : List Nat}
    {u c : Nat} {vis : List Nat} (h : DomPath g s dist u c vis) :
    ∀ e ∈ gAt g u, c + e.cost ≤ edgeSum g := by
  intro e he
  obtain ⟨srcs, hnd, hvs, -, hle⟩ := dompath_srcs h
  have hec : e.cost ≤ bucketCost (gAt g u) := by
    refine List.single_le_sum (fun x _ => Nat.zero_le x) _ ?_
    exact List.mem_map_of_mem Edge.cost he
  have hconc : c + e.cost ≤ ((u :: srcs).map (fun x => bucketCost (gAt g x))).sum := by
    rw [List.map_cons, List.sum_cons]
    omega
  exact le_trans hconc
    (sum_buckets_nodup_le g (u :: srcs) (List.nodup_cons.mpr ⟨hvs, hnd⟩))

/-- Everything one relaxation pass guarantees when no candidate sum wraps: it
succeeds when all edge targets are in range; table length is preserved;
entries only decrease; every changed entry comes from one of the relaxed
edges and carries a pushed heap entry; old heap entries survive; new heap
entries are exactly the successful pushes; after the pass every relaxed edge
target is at most `c + e.cost`; and the measure `dist.sum + heap.length`
does not increase. -/
theorem relaxEdges_spec (c : Nat) : ∀ (es : List Edge) (h : List State) (d : List Nat),
    (∀ e ∈ es, e.node < d.length) →
    (∀ e ∈ es, c + e.cost < 2 ^ 64) →
    ∃ h2 d2, relaxEdges c es h d = some (h2, d2) ∧
      d2.length = d.length ∧
      (∀ v, dAt d2 v ≤ dAt d v) ∧
      (∀ v, dAt d2 v = dAt d v ∨
        (dAt d2 v < dAt d v ∧ ∃ e ∈ es, e.node = v ∧ dAt d2 v = c + e.cost)) ∧
      (∀ x ∈ h, x ∈ h2) ∧
      (∀ x ∈ h2, x ∈ h ∨ ∃ e ∈ es, x = ⟨c + e.cost, e.node⟩ ∧ c + e.cost < dAt d e.node) ∧
      (∀ e ∈ es, dAt d2 e.node ≤ c + e.cost) ∧
      (∀ v, dAt d2 v ≠ dAt d v → (⟨dAt d2 v, v⟩ : State) ∈ h2) ∧
      d2.sum + h2.length ≤ d.sum + h.length := by
  intro es
  induction es with
  | nil =>
    intro h d _ _
    refine ⟨h, d, by simp [relaxEdges], rfl, fun v => le_refl _, fun v => .inl rfl,
      fun x hx => hx, fun x hx => .inl hx, by simp, fun v hv => absurd rfl hv, le_refl _⟩
  | cons e es ih =>
    intro h d htg hband
    have hnode : e.node < d.length := htg e (by simp)
    have hget : d.get? e.node = some (dAt d e.node) := get?_eq_dAt hnode
    have hwr : wrapU (c + e.cost) = c + e.cost := wrapU_eq (hband e (by simp))
    by_cases hlt : c + e.cost < dAt d e.node
    · -- successful push and table write
      set d' := d.set e.node (c + e.cost) with hd'
      set h' := (⟨c + e.cost, e.node⟩ : State) :: h with hh'
      have hlen' : d'.length = d.length := by simp [hd']
      have htg' : ∀ e2 ∈ es, e2.node < d'.length := by
        intro e2 he2
        rw [hlen']
        exact htg e2 (by simp [he2])
      obtain ⟨h2, d2, heq, hlen, hle, hchar, hsub, hnew, hrel, hpush, hsum⟩ :=
        ih h' d' htg' (fun e2 he2 => hband e2 (by simp [he2]))
      have hset_self : dAt d' e.node = c + e.cost := dAt_set_self hnode
      have hset_ne : ∀ v, v ≠ e.node → dAt d' v = dAt d v := by
        intro v hv
        exact dAt_set_ne fun hx => hv hx.symm
      have hle' : ∀ v, dAt d' v ≤ dAt d v := by
        intro v
        by_cases hv : v = e.node
        · rw [hv, hset_self]; omega
        · rw [hset_ne v hv]
      refine ⟨h2, d2, ?_, by rw [hlen, hlen'], ?_, ?_, ?_, ?_, ?_, ?_, ?_⟩
      · simp only [relaxEdges, hget, hwr, if_pos hlt]
        exact heq
      · intro v
        exact le_trans (hle v) (hle' v)
      · intro v
        rcases hchar v with hsame | ⟨hdec, e2, he2, hn2, hv2⟩
        · by_cases hv : v = e.node
          · subst hv
            rw [hsame, hset_self]
            exact .inr ⟨hlt, e, by simp, rfl, rfl⟩
          · rw [hsame, hset_ne v hv]
            exact .inl rfl
        · refine .inr ⟨lt_of_lt_of_le hdec (hle' v), e2, by simp [he2], hn2, hv2⟩
      · intro x hx
        exact hsub x (by simp [hh', hx])
      · intro x hx
        rcases hnew x hx with hx' | ⟨e2, he2, hx2, hlt2⟩
        · rcases List.mem_cons.mp (hh' ▸ hx') with rfl | hxh
          · exact .inr ⟨e, by simp, rfl, hlt⟩
          · exact .inl hxh
        · exact .inr ⟨e2, by simp [he2], hx2, lt_of_lt_of_le hlt2 (hle' e2.node)⟩
      · intro e2 he2
        rcases List.mem_cons.mp he2 with rfl | he2'
        · calc dAt d2 e2.node ≤ dAt d' e2.node := hle e2.node
            _ = c + e2.cost := hset_self
        · exact hrel e2 he2'
      · intro v hv
        by_cases hv' : dAt d2 v = dAt d' v
        · have hvne : v = e.node := by
            by_contra hvn
            exact hv (hv'.trans (hset_ne v hvn))
          subst hvne
          rw [hv', hset_self]
          exact hsub _ (by simp [hh'])
        · exact hpush v hv'
      · have hs1 : d'.sum + 1 ≤ d.sum := sum_set_succ_le hnode hlt
        have hh1 : h'.length = h.length + 1 := by simp [hh']
        omega
    · -- no improvement: skip this edge
      obtain ⟨h2, d2, heq, hlen, hle, hchar, hsub, hnew, hrel, hpush, hsum⟩ :=
        ih h d (fun e2 he2 => htg e2 (by simp [he2]))
          (fun e2 he2 => hband e2 (by simp [he2]))
      refine ⟨h2, d2, ?_, hlen, hle, ?_, hsub, ?_, ?_, hpush, hsum⟩
      · simp only [relaxEdges, hget, hwr, if_neg hlt]
        exact heq
      · intro v
        rcases hchar v with hsame | ⟨hdec, e2, he2, hn2, hv2⟩
        · exact .inl hsame
        · exact .inr ⟨hdec, e2, by simp [he2], hn2, hv2⟩
      · intro x hx
        rcases hnew x hx with hx' | ⟨e2, he2, hx2, hlt2⟩
        · exact .inl hx'
        · exact .inr ⟨e2, by simp [he2], hx2, hlt2⟩
      · intro e2 he2
        rcases List.mem_cons.mp he2 with rfl | he2'
        · have := hle e2.node
          omega
        · exact hrel e2 he2'

/-- A relaxation pass always succeeds when all edge targets are in range,
wrapping or not. -/
theorem relaxEdges_total (c : Nat) : ∀ (es : List Edge) (h : List State)
    (d : List Nat), (∀ e ∈ es, e.node < d.length) →
    ∃ h2 d2, relaxEdges c es h d = some (h2, d2) := by
  intro es
  induction es with
  | nil =>
    intro h d _
    exact ⟨h, d, rfl⟩
  | cons e es ih =>
    intro h d htg
    have hget : d.get? e.node = some (dAt d e.node) := get?_eq_dAt (htg e (by simp))
    by_cases hlt : wrapU (c + e.cost) < dAt d e.node
    · obtain ⟨h2, d2, heq⟩ := ih (⟨wrapU (c + e.cost), e.node⟩ :: h)
        (d.set e.node (wrapU (c + e.cost))) (by
          intro e2 he2
          rw [List.length_set]
          exact htg e2 (by simp [he2]))
      refine ⟨h2, d2, ?_⟩
      simp only [relaxEdges, hget, if_pos hlt]
      exact heq
    · obtain ⟨h2, d2, heq⟩ := ih h d (fun e2 he2 => htg e2 (by simp [he2]))
      refine ⟨h2, d2, ?_⟩
      simp only [relaxEdges, hget, if_neg hlt]
      exact heq

/-! ## The lazy-deletion search invariant -/

/-- The invariant of one search direction (source `s`, short-circuit target
`goal`), shared by the loop of `dijkstra` and by `dijkstra_step`: the table and
heap hold costs of actual paths from `s`; the table underestimates every heap
entry; and every finite table entry either still has its exact entry pending in
the heap or has had all its outgoing edges relaxed (for the goal, whose pops
return before relaxing, always the former). -/
structure SearchInv (g : List (List Edge)) (s goal : Nat) (heap : List State)
    (dist : List Nat) : Prop where
  len : dist.length = g.length
  src : dAt dist s = 0
  dist_le : ∀ v, dAt dist v ≤ usizeMax
  dist_sound : ∀ v, dAt dist v < usizeMax → Reach g s v (dAt dist v)
  heap_pos : ∀ x ∈ heap, x.position < g.length
  heap_sound : ∀ x ∈ heap, Reach g s x.position x.cost
  heap_fin : ∀ x ∈ heap, x.cost < usizeMax
  heap_dist : ∀ x ∈ heap, dAt dist x.position ≤ x.cost
  key : ∀ v, v < g.length → v ≠ goal → dAt dist v < usizeMax →
    (⟨dAt dist v, v⟩ : State) ∈ heap ∨
    ∀ e ∈ gAt g v, dAt dist e.node ≤ dAt dist v + e.cost
  goal_key : dAt dist goal < usizeMax → (⟨dAt dist goal, goal⟩ : State) ∈ heap
  dist_dom : ∀ v, dAt dist v < usizeMax →
    ∃ vis, DomPath g s dist v (dAt dist v) vis
  heap_dom : ∀ x ∈ heap, ∃ vis, DomPath g s dist x.position x.cost vis

/-- Every finite label of an invariant state is bounded by the edge-cost
budget: its dominated-path witness repeats no bucket. -/
theorem inv_label_le {g : List (List Edge)} {s goal : Nat} {heap : List State}
    {dist : List Nat} (hinv : SearchInv g s goal heap dist) :
    ∀ v, dAt dist v < usizeMax → dAt dist v ≤ edgeSum g := by
  intro v hfin
  obtain ⟨vis, hdp⟩ := hinv.dist_dom v hfin
  exact dompath_cost_le hdp

/-- Under the no-overflow side condition, every candidate sum a heap entry can
produce stays below `2 ^ 64`: the entry's cost is a dominated-path cost, and
the path has not used the entry's own bucket. -/
theorem inv_cand_lt {g : List (List Edge)} {s goal : Nat} {heap : List State}
    {dist : List Nat} (hinv : SearchInv g s goal heap dist)
    (hsmall : SmallCosts g) {m : State} (hm : m ∈ heap) :
    ∀ e ∈ gAt g m.position, m.cost + e.cost < 2 ^ 64 := by
  intro e he
  obtain ⟨vis, hdp⟩ := hinv.heap_dom m hm
  have h1 := dompath_cand_le hdp e he
  have h2 : usizeMax < 2 ^ 64 := usizeMax_lt_pow
  unfold SmallCosts at hsmall
  omega

/-- Discarding a stale entry (or any entry whose cost exceeds its table value)
preserves the invariant. -/
theorem stale_preserves {g : List (List Edge)} {s t : Nat} {heap dist m rest}
    (hinv : SearchInv g s t heap dist) (hp : heapPop heap = some (m, rest))
    (hstale : dAt dist m.position < m.cost) : SearchInv g s t rest dist := by
  have hsub := rest_subset hp
  refine ⟨hinv.len, hinv.src, hinv.dist_le, hinv.dist_sound,
    fun x hx => hinv.heap_pos x (hsub x hx),
    fun x hx => hinv.heap_sound x (hsub x hx),
    fun x hx => hinv.heap_fin x (hsub x hx),
    fun x hx => hinv.heap_dist x (hsub x hx), ?_, ?_,
    hinv.dist_dom, fun x hx => hinv.heap_dom x (hsub x hx)⟩
  · intro v hv hvt hfin
    rcases hinv.key v hv hvt hfin with hmem | hrel
    · left
      refine mem_rest_of_ne hp hmem ?_
      intro hx
      by_cases hvm : v = m.position
      · rw [hvm] at hx
        have : dAt dist m.position = m.cost := congrArg State.cost hx
        omega
      · exact hvm (congrArg State.position hx)
    · exact .inr hrel
  · intro hfin
    have hmem := hinv.goal_key hfin
    refine mem_rest_of_ne hp hmem ?_
    intro hx
    by_cases hvm : t = m.position
    · rw [hvm] at hx
      have : dAt dist m.position = m.cost := congrArg State.cost hx
      omega
    · exact hvm (congrArg State.position hx)

/-- Relaxing from a freshly popped non-goal entry preserves the invariant and
strictly decreases the measure `dist.sum + heap.length`. -/
theorem fresh_relax_preserves {g : List (List Edge)} {s t : Nat} {heap dist m rest}
    (hg : ValidGraph g) (hsmall : SmallCosts g) (hinv : SearchInv g s t heap dist)
    (hp : heapPop heap = some (m, rest)) (hmt : m.position ≠ t)
    (hfresh : ¬ dAt dist m.position < m.cost) :
    ∃ h2 d2, relaxEdges m.cost (gAt g m.position) rest dist = some (h2, d2) ∧
      SearchInv g s t h2 d2 ∧ d2.sum + h2.length + 1 ≤ dist.sum + heap.length := by
  obtain ⟨hm, hrest, hmin, htie⟩ := heapPop_min hp
  have hmpos : m.position < g.length := hinv.heap_pos m hm
  have hmfresh : m.cost = dAt dist m.position :=
    le_antisymm (by omega) (hinv.heap_dist m hm)
  have htg : ∀ e ∈ gAt g m.position, e.node < dist.length := by
    intro e he
    rw [hinv.len]
    exact valid_target hg hmpos he
  have hband : ∀ e ∈ gAt g m.position, m.cost + e.cost < 2 ^ 64 :=
    inv_cand_lt hinv hsmall hm
  obtain ⟨h2, d2, heq, hlen, hle, hchar, hsub, hnew, hrel, hpush, hsum⟩ :=
    relaxEdges_spec m.cost (gAt g m.position) rest dist htg hband
  have hsubheap := rest_subset hp
  have hreach_m : Reach g s m.position m.cost := hinv.heap_sound m hm
  have hreach_new : ∀ e ∈ gAt g m.position, Reach g s e.node (m.cost + e.cost) :=
    fun e he => Reach.snoc e hmpos he hreach_m
  refine ⟨h2, d2, heq, ?_, ?_⟩
  · refine ⟨hlen.trans hinv.len, ?_, ?_, ?_, ?_, ?_, ?_, ?_, ?_, ?_, ?_, ?_⟩
    · rcases hchar s with hsame | ⟨hdec, -⟩
      · rw [hsame, hinv.src]
      · rw [hinv.src] at hdec
        omega
    · intro v
      exact le_trans (hle v) (hinv.dist_le v)
    · intro v hfin
      rcases hchar v with hsame | ⟨hdec, e, he, hn, hv⟩
      · rw [hsame] at hfin ⊢
        exact hinv.dist_sound v hfin
      · rw [hv]
        rw [← hn]
        exact hreach_new e he
    · intro x hx
      rcases hnew x hx with hx' | ⟨e, he, hx2, -⟩
      · exact hinv.heap_pos x (hsubheap x hx')
      · rw [hx2]
        exact valid_target hg hmpos he
    · intro x hx
      rcases hnew x hx with hx' | ⟨e, he, hx2, -⟩
      · exact hinv.heap_sound x (hsubheap x hx')
      · rw [hx2]
        exact hreach_new e he
    · intro x hx
      rcases hnew x hx with hx' | ⟨e, he, hx2, hlt2⟩
      · exact hinv.heap_fin x (hsubheap x hx')
      · rw [hx2]
        have := hinv.dist_le e.node
        simp only []
        omega
    · intro x hx
      rcases hnew x hx with hx' | ⟨e, he, hx2, -⟩
      · exact le_trans (hle x.position)
          (hinv.heap_dist x (hsubheap x hx'))
      · rw [hx2]
        exact hrel e he
    · intro v hv hvt hfin
      by_cases hch : dAt d2 v = dAt dist v
      · have hfin' : dAt dist v < usizeMax := hch ▸ hfin
        rcases hinv.key v hv hvt hfin' with hmem | hrelx
        · by_cases hvm : v = m.position
          · right
            intro e he
            have h1 : dAt d2 e.node ≤ m.cost + e.cost := hrel e (hvm ▸ he)
            rw [hch, hvm, ← hmfresh]
            exact h1
          · left
            rw [hch]
            refine hsub _ (mem_rest_of_ne hp hmem ?_)
            intro hx
            exact hvm (congrArg State.position hx)
        · right
          intro e he
          calc dAt d2 e.node ≤ dAt dist e.node := hle e.node
            _ ≤ dAt dist v + e.cost := hrelx e he
            _ = dAt d2 v + e.cost := by rw [hch]
      · exact .inl (hpush v hch)
    · intro hfin
      by_cases hch : dAt d2 t = dAt dist t
      · have hfin' : dAt dist t < usizeMax := hch ▸ hfin
        have hmem := hinv.goal_key hfin'
        rw [hch]
        refine hsub _ (mem_rest_of_ne hp hmem ?_)
        intro hx
        exact hmt (congrArg State.position hx).symm
      · exact hpush t hch
    · intro v hfin
      rcases hchar v with hsame | ⟨hdec, e, he, hn, hv⟩
      · have hfin2 : dAt dist v < usizeMax := hsame ▸ hfin
        obtain ⟨vis, hdp⟩ := hinv.dist_dom v hfin2
        rw [hsame]
        exact ⟨vis, dompath_mono hle hdp⟩
      · subst hn
        obtain ⟨vism, hdpm⟩ := hinv.heap_dom m hm
        have hnotin : e.node ∉ vism := by
          intro hmem
          have h1 : dAt dist e.node ≤ m.cost := dompath_mem_le hdpm e.node hmem
          rw [hv] at hdec
          omega
        have hdom2 : dAt d2 e.node ≤ m.cost + e.cost := hrel e he
        have hdp2 := DomPath.snoc e hmpos he hnotin hdom2 (dompath_mono hle hdpm)
        rw [hv]
        exact ⟨vism ++ [e.node], hdp2⟩
    · intro x hx
      rcases hnew x hx with hx2 | ⟨e, he, hx2, hlt2⟩
      · obtain ⟨vis, hdp⟩ := hinv.heap_dom x (hsubheap x hx2)
        exact ⟨vis, dompath_mono hle hdp⟩
      · obtain ⟨vism, hdpm⟩ := hinv.heap_dom m hm
        have hnotin : e.node ∉ vism := by
          intro hmem
          have h1 : dAt dist e.node ≤ m.cost := dompath_mem_le hdpm e.node hmem
          omega
        have hdom2 : dAt d2 e.node ≤ m.cost + e.cost := hrel e he
        have hdp2 := DomPath.snoc e hmpos he hnotin hdom2 (dompath_mono hle hdpm)
        rw [hx2]
        exact ⟨vism ++ [e.node], hdp2⟩
  · have := rest_length hp
    omega

/-- The core optimality argument: any path cost below both every pending heap
cost and the sentinel is already dominated by the distance table. -/
theorem reach_lb {g : List (List Edge)} {s t : Nat} {heap dist}
    (hinv : SearchInv g s t heap dist) {lb : Nat}
    (hlb : ∀ x ∈ heap, lb ≤ x.cost) :
    ∀ v c, Reach g s v c → c < lb → c < usizeMax → dAt dist v ≤ c := by
  intro v c hreach
  induction hreach with
  | refl =>
    intro _ _
    rw [hinv.src]
  | @snoc u c e hu he hr ih =>
    intro hclb hcM
    have hc1 : c < lb := by omega
    have hc2 : c < usizeMax := by omega
    have hdu : dAt dist u ≤ c := ih hc1 hc2
    have hfin : dAt dist u < usizeMax := by omega
    by_cases hut : u = t
    · have hmem := hinv.goal_key (hut ▸ hfin)
      have h1 : lb ≤ dAt dist t := hlb _ hmem
      have h2 : dAt dist t ≤ c := hut ▸ hdu
      omega
    · rcases hinv.key u hu hut hfin with hmem | hrelx
      · have h1 : lb ≤ dAt dist u := hlb _ hmem
        omega
      · calc dAt dist e.node ≤ dAt dist u + e.cost := hrelx e he
          _ ≤ c + e.cost := by omega

/-- Case analysis of one loop iteration under the invariant: the loop either
returns "unreachable" on an empty heap, returns the popped cost on a goal hit,
or continues in an invariant-preserving state of strictly smaller measure.
In particular no iteration reaches the out-of-bounds branches. -/
theorem dijkstraIter_cases {g : List (List Edge)} {s t : Nat} {heap dist}
    (hg : ValidGraph g) (hsmall : SmallCosts g)
    (hinv : SearchInv g s t heap dist) :
    (dijkstraIter g t heap dist = .ret (.ok none) ∧ heap = []) ∨
    (∃ m rest, heapPop heap = some (m, rest) ∧ m.position = t ∧
      dijkstraIter g t heap dist = .ret (.ok (some m.cost))) ∨
    (∃ h2 d2, dijkstraIter g t heap dist = .cont h2 d2 ∧ SearchInv g s t h2 d2 ∧
      d2.sum + h2.length < dist.sum + heap.length) := by
  cases hp : heapPop heap with
  | none =>
    have hiter : dijkstraIter g t heap dist = .ret (.ok none) := by
      simp [dijkstraIter, hp]
    exact .inl ⟨hiter, heapPop_none_iff.mp hp⟩
  | some pr =>
    obtain ⟨m, rest⟩ := pr
    by_cases hmt : m.position = t
    · have hiter : dijkstraIter g t heap dist = .ret (.ok (some m.cost)) := by
        simp [dijkstraIter, hp, hmt]
      exact .inr (.inl ⟨m, rest, rfl, hmt, hiter⟩)
    · right
      right
      have hmpos : m.position < g.length := hinv.heap_pos m (heapPop_min hp).1
      have hget : dist[m.position]? = some (dAt dist m.position) :=
        getElem?_eq_dAt (by rw [hinv.len]; exact hmpos)
      by_cases hstale : dAt dist m.position < m.cost
      · have hiter : dijkstraIter g t heap dist = .cont rest dist := by
          simp [dijkstraIter, hp, hmt, hget, hstale]
        refine ⟨rest, dist, hiter, stale_preserves hinv hp hstale, ?_⟩
        have := rest_length hp
        omega
      · obtain ⟨h2, d2, heq, hinv2, hmeas⟩ :=
          fresh_relax_preserves hg hsmall hinv hp hmt hstale
        have hiter : dijkstraIter g t heap dist = .cont h2 d2 := by
          simp [dijkstraIter, hp, hmt, hget, hstale, g_getElem?_eq_gAt hmpos, heq]
        exact ⟨h2, d2, hiter, hinv2, by omega⟩

/-- Correctness of the `dijkstra` loop: from any invariant state with
sufficient fuel, it returns the least path cost from `s` to `t` when one below
the sentinel exists, and "unreachable" when every path costs at least the
sentinel (or none exists). -/
theorem dijkstraLoop_correct {g : List (List Edge)} {s t : Nat}
    (hg : ValidGraph g) (hsmall : SmallCosts g) :
    ∀ fuel heap dist, SearchInv g s t heap dist →
      dist.sum + heap.length < fuel →
      (∃ c, dijkstraLoop g t fuel heap dist = .ok (some c) ∧ IsShortest g s t c ∧
        c < usizeMax) ∨
      (dijkstraLoop g t fuel heap dist = .ok none ∧
        ∀ c, Reach g s t c → usizeMax ≤ c) := by
  intro fuel
  induction fuel with
  | zero =>
    intro heap dist _ hmeas
    omega
  | succ f ih =>
    intro heap dist hinv hmeas
    rcases dijkstraIter_cases hg hsmall hinv with
        ⟨hit, hempty⟩ | ⟨m, rest, hp, hmt, hit⟩ |
        ⟨h2, d2, hit, hinv2, hmeas2⟩
    · right
      constructor
      · simp [dijkstraLoop, hit]
      · intro c hc
        by_contra hlt
        push_neg at hlt
        have hlb : ∀ x ∈ heap, usizeMax ≤ x.cost := by
          rw [hempty]
          intro x hx
          cases hx
        have hd := reach_lb hinv hlb t c hc hlt hlt
        have hfin : dAt dist t < usizeMax := by omega
        have := hinv.goal_key hfin
        rw [hempty] at this
        cases this
    · left
      obtain ⟨hm, -, hmin, -⟩ := heapPop_min hp
      have hreach : Reach g s t m.cost := hmt ▸ hinv.heap_sound m hm
      have hfinm : m.cost < usizeMax := hinv.heap_fin m hm
      refine ⟨m.cost, by simp [dijkstraLoop, hit], ⟨hreach, ?_⟩, hfinm⟩
      intro x hx
      by_contra hlt
      push_neg at hlt
      have hd := reach_lb hinv hmin t x hx hlt (by omega)
      have hfin : dAt dist t < usizeMax := by omega
      have hmem := hinv.goal_key hfin
      have := hmin _ hmem
      simp only [] at this
      omega
    · have hloop : dijkstraLoop g t (f + 1) heap dist = dijkstraLoop g t f h2 d2 := by
        simp [dijkstraLoop, hit]
      rw [hloop]
      exact ih h2 d2 hinv2 (by omega)

/-- The initial state of `dijkstra` satisfies the invariant. -/
theorem init_inv {g : List (List Edge)} {s t : Nat} (hs : s < g.length) :
    SearchInv g s t [⟨0, s⟩] ((List.replicate g.length usizeMax).set s 0) := by
  have hlen : ((List.replicate g.length usizeMax).set s 0).length = g.length := by
    simp
  have hat : ∀ v, dAt ((List.replicate g.length usizeMax).set s 0) v =
      if v = s then 0 else usizeMax := by
    intro v
    by_cases hv : v = s
    · rw [hv, if_pos rfl]
      exact dAt_set_self (by simpa using hs)
    · rw [if_neg hv, dAt_set_ne (fun h => hv h.symm)]
      by_cases hvl : v < g.length
      · rw [dAt]
        rw [List.getD_eq_get?, List.get?_eq_get (by simpa using hvl)]
        simp
      · exact dAt_of_ge (by simpa using Nat.le_of_not_lt hvl)
  refine ⟨hlen, by rw [hat s, if_pos rfl], ?_, ?_, ?_, ?_, ?_, ?_, ?_, ?_, ?_, ?_⟩
  · intro v
    rw [hat v]
    split <;> simp [usizeMax]
  · intro v hfin
    rw [hat v] at hfin ⊢
    by_cases hv : v = s
    · rw [if_pos hv] at hfin ⊢
      rw [hv]
      exact Reach.refl
    · rw [if_neg hv] at hfin
      omega
  · intro x hx
    simp at hx
    rw [hx]
    exact hs
  · intro x hx
    simp at hx
    rw [hx]
    exact Reach.refl
  · intro x hx
    simp at hx
    rw [hx]
    simp [usizeMax]
  · intro x hx
    simp at hx
    rw [hx, hat s, if_pos rfl]
  · intro v hv hvt hfin
    rw [hat v] at hfin ⊢
    by_cases hvs : v = s
    · rw [if_pos hvs] at hfin ⊢
      refine .inl ?_
      rw [hvs]
      exact List.mem_singleton.mpr rfl
    · rw [if_neg hvs] at hfin
      omega
  · intro hfin
    rw [hat t] at hfin ⊢
    by_cases hts : t = s
    · rw [if_pos hts] at hfin ⊢
      rw [hts]
      exact List.mem_singleton.mpr rfl
    · rw [if_neg hts] at hfin
      omega
  · intro v hfin
    by_cases hvs : v = s
    · subst hvs
      refine ⟨[v], ?_⟩
      have hz : dAt ((List.replicate g.length usizeMax).set v 0) v = 0 := by
        rw [hat v, if_pos rfl]
      rw [hz]
      exact DomPath.refl hz
    · rw [hat v, if_neg hvs] at hfin
      omega
  · intro x hx
    simp at hx
    have hz : dAt ((List.replicate g.length usizeMax).set s 0) s = 0 := by
      rw [hat s, if_pos rfl]
    rw [hx]
    exact ⟨[s], DomPath.refl hz⟩

/-! ## Claim C1: correctness of `dijkstra` -/

/-- C1, amended: for a valid graph with in-range endpoints whose edge costs
cannot make a `usize` addition wrap (`SmallCosts`), `dijkstra` returns
`Some c` whenever `c` is the least path cost from start to goal and lies
below `usize::MAX` (the sentinel), and returns `None` whenever every path
costs at least the sentinel — in particular when no path exists at all. -/
theorem c1_dijkstra_shortest_below_sentinel (g : List (List Edge)) (s t : Nat)
    (hg : ValidGraph g) (hsmall : SmallCosts g) (hs : s < g.length)
    (ht : t < g.length) :
    (∀ c, IsShortest g s t c → c < usizeMax → dijkstra g s t = .ok (some c)) ∧
    ((∀ c, Reach g s t c → usizeMax ≤ c) → dijkstra g s t = .ok none) := by
  have hd : dijkstra g s t =
      dijkstraLoop g t (dijkstraFuel ((List.replicate g.length usizeMax).set s 0))
        [⟨0, s⟩] ((List.replicate g.length usizeMax).set s 0) := by
    unfold dijkstra
    simp [hs]
  have hmeas : ((List.replicate g.length usizeMax).set s 0).sum +
      ([(⟨0, s⟩ : State)]).length <
      dijkstraFuel ((List.replicate g.length usizeMax).set s 0) := by
    simp [dijkstraFuel]
  have hloop := dijkstraLoop_correct (s := s) (t := t) hg hsmall _ _ _
    (init_inv hs) hmeas
  constructor
  · intro c hshort hcM
    rcases hloop with ⟨c2, hres, hshort2, hc2M⟩ | ⟨hres, hunr⟩
    · have h1 : c ≤ c2 := hshort.2 c2 hshort2.1
      have h2 : c2 ≤ c := hshort2.2 c hshort.1
      have hc : c = c2 := le_antisymm h1 h2
      rw [hd, hres, hc]
    · have := hunr c hshort.1
      omega
  · intro hunr
    rcases hloop with ⟨c2, hres, hshort2, hc2M⟩ | ⟨hres, -⟩
    · have := hunr c2 hshort2.1
      omega
    · rw [hd, hres]

/-- C1, counterexample to the claim as stated: a single edge of cost
`usize::MAX`.  A directed path from 0 to 1 exists (of cost `usize::MAX`), yet
`dijkstra` returns `None`, because the sentinel value aliases this genuine path
cost (`cost < dist[next]` fails against the `usize::MAX` initialisation). -/
theorem c1_cex_path_cost_at_sentinel :
    dijkstra [[⟨1, usizeMax⟩], []] 0 1 = .ok none ∧
    Reach [[⟨1, usizeMax⟩], []] 0 1 usizeMax := by
  constructor
  · decide
  · have h := Reach.snoc (g := [[⟨1, usizeMax⟩], []]) (s := 0) (u := 0) (c := 0)
      ⟨1, usizeMax⟩ (by decide) (by decide) Reach.refl
    simpa using h

/-- C1, witness: the amended theorem applied to a one-node graph with a
self-loop, giving `dijkstra g 0 0 = Some 0`. -/
theorem c1_witness : dijkstra [[⟨0, 3⟩]] 0 0 = .ok (some 0) :=
  (c1_dijkstra_shortest_below_sentinel [[⟨0, 3⟩]] 0 0 (by decide) (by decide)
    (by decide) (by decide)).1 0 ⟨Reach.refl, fun x _ => Nat.zero_le x⟩ (by decide)

/-! ## Case analysis of `dijkstra_step` -/

/-- Shape of `dijkstra_step` on in-range inputs: empty heap (no-op), direct
goal hit, or relaxation of the popped entry (the source never validates the
popped entry against the table here). -/
theorem dijkstra_step_cases (adj : List (List Edge)) (goal : Nat)
    (heap : List State) (dist : List Nat) (hg : ValidGraph adj)
    (hlen : dist.length = adj.length)
    (hpos : ∀ x ∈ heap, x.position < adj.length) :
    (heap = [] ∧ dijkstra_step adj goal heap dist = some (none, heap, dist)) ∨
    (∃ m rest, heapPop heap = some (m, rest) ∧ m.position = goal ∧
      dijkstra_step adj goal heap dist = some (some m.cost, rest, dist)) ∨
    (∃ m rest h2 d2, heapPop heap = some (m, rest) ∧ m.position ≠ goal ∧
      relaxEdges m.cost (gAt adj m.position) rest dist = some (h2, d2) ∧
      dijkstra_step adj goal heap dist = some (none, h2, d2)) := by
  cases hp : heapPop heap with
  | none =>
    refine .inl ⟨heapPop_none_iff.mp hp, ?_⟩
    simp [dijkstra_step, hp]
  | some pr =>
    obtain ⟨m, rest⟩ := pr
    by_cases hmt : m.position = goal
    · refine .inr (.inl ⟨m, rest, rfl, hmt, ?_⟩)
      simp [dijkstra_step, hp, hmt]
    · have hmpos : m.position < adj.length := hpos m (heapPop_min hp).1
      have htg : ∀ e ∈ gAt adj m.position, e.node < dist.length := by
        intro e he
        rw [hlen]
        exact valid_target hg hmpos he
      obtain ⟨h2, d2, heq⟩ := relaxEdges_total m.cost (gAt adj m.position) rest dist htg
      refine .inr (.inr ⟨m, rest, h2, d2, rfl, hmt, heq, ?_⟩)
      simp [dijkstra_step, hp, hmt, g_getElem?_eq_gAt hmpos, heq]

/-- A table entry that is a lower bound of the relaxing cost and of every heap
cost stays pinned, and the bound extends to the new heap. -/
theorem relax_pin {c : Nat} {es : List Edge} {h : List State} {d : List Nat}
    {h2 : List State} {d2 : List Nat} (htg : ∀ e ∈ es, e.node < d.length)
    (hband : ∀ e ∈ es, c + e.cost < 2 ^ 64)
    (heq : relaxEdges c es h d = some (h2, d2)) {u lb : Nat}
    (hub : dAt d u = lb) (hlb : ∀ x ∈ h, lb ≤ x.cost) (hc : lb ≤ c) :
    dAt d2 u = lb ∧ ∀ x ∈ h2, lb ≤ x.cost := by
  obtain ⟨h2', d2', heq', -, -, hchar, -, hnew, -, -, -⟩ :=
    relaxEdges_spec c es h d htg hband
  rw [heq] at heq'
  obtain ⟨h1, h2eq⟩ : h2' = h2 ∧ d2' = d2 := by
    constructor <;> (cases heq'; rfl)
  subst h1 h2eq
  constructor
  · rcases hchar u with hsame | ⟨hdec, e, he, hn, hv⟩
    · rw [hsame, hub]
    · rw [hub] at hdec
      omega
  · intro x hx
    rcases hnew x hx with hx' | ⟨e, he, hx2, -⟩
    · exact hlb x hx'
    · rw [hx2]
      simp only []
      omega

/-- Pointwise monotonicity of a relaxation pass, wrapping or not: every write
the pass performs passes the strict improvement test on the wrapped value. -/
theorem relax_mono {c : Nat} : ∀ {es : List Edge} {h h2 : List State}
    {d d2 : List Nat}, relaxEdges c es h d = some (h2, d2) →
    ∀ v, dAt d2 v ≤ dAt d v := by
  intro es
  induction es with
  | nil =>
    intro h h2 d d2 heq v
    simp [relaxEdges] at heq
    rw [← heq.2]
  | cons e es ih =>
    intro h h2 d d2 heq v
    simp only [relaxEdges] at heq
    cases hget : d.get? e.node with
    | none =>
      simp only [hget] at heq
      cases heq
    | some dv =>
      simp only [hget] at heq
      have hnode : e.node < d.length := (List.get?_eq_some.mp hget).1
      have hdv : dAt d e.node = dv := by
        have h2 := get?_eq_dAt hnode
        rw [hget] at h2
        exact (Option.some.inj h2).symm
      by_cases hlt : wrapU (c + e.cost) < dv
      · rw [if_pos hlt] at heq
        refine le_trans (ih heq v) ?_
        by_cases hv : v = e.node
        · subst hv
          rw [dAt_set_self hnode]
          omega
        · rw [dAt_set_ne (fun hx => hv hx.symm)]
      · rw [if_neg hlt] at heq
        exact ih heq v

/-- Shape of a continuing iteration of the `dijkstra` loop on in-range inputs:
a popped non-goal entry is either discarded as stale or relaxed. -/
theorem dijkstraIter_cont_cases {g : List (List Edge)} {goal : Nat}
    {heap : List State} {dist : List Nat} (hg : ValidGraph g)
    (hlen : dist.length = g.length)
    (hpos : ∀ x ∈ heap, x.position < g.length)
    {h2 : List State} {d2 : List Nat}
    (hit : dijkstraIter g goal heap dist = .cont h2 d2) :
    ∃ m rest, heapPop heap = some (m, rest) ∧ m.position ≠ goal ∧
      ((dAt dist m.position < m.cost ∧ h2 = rest ∧ d2 = dist) ∨
       (¬ dAt dist m.position < m.cost ∧
         relaxEdges m.cost (gAt g m.position) rest dist = some (h2, d2))) := by
  cases hp : heapPop heap with
  | none => simp [dijkstraIter, hp] at hit
  | some pr =>
    obtain ⟨m, rest⟩ := pr
    by_cases hmt : m.position = goal
    · simp [dijkstraIter, hp, hmt] at hit
    · have hmpos : m.position < g.length := hpos m (heapPop_min hp).1
      have hget : dist[m.position]? = some (dAt dist m.position) :=
        getElem?_eq_dAt (by rw [hlen]; exact hmpos)
      by_cases hstale : dAt dist m.position < m.cost
      · simp [dijkstraIter, hp, hmt, hget, hstale] at hit
        exact ⟨m, rest, rfl, hmt, .inl ⟨hstale, hit.1.symm, hit.2.symm⟩⟩
      · have htg : ∀ e ∈ gAt g m.position, e.node < dist.length := by
          intro e he
          rw [hlen]
          exact valid_target hg hmpos he
        obtain ⟨h2', d2', heq⟩ :=
          relaxEdges_total m.cost (gAt g m.position) rest dist htg
        simp [dijkstraIter, hp, hmt, hget, hstale, g_getElem?_eq_gAt hmpos, heq]
          at hit
        exact ⟨m, rest, rfl, hmt, .inr ⟨hstale, by rw [heq, hit.1, hit.2]⟩⟩

/-! ## Claim C9: distance-table monotonicity and finality -/

/-- C9, amended: in both engines (one iteration of `dijkstra`'s loop, one
`dijkstra_step` as used by `dijkstra_bidir`), distance-table entries only ever
decrease — unconditionally, because every write must pass the strict
improvement test on the (wrapped) candidate.  The finality half of the claim
needs the no-overflow side condition: under the search invariant and
`SmallCosts`, a table entry that bounds every pending heap cost from below —
as is established the moment its node is popped with cost equal to the
entry, since the popped entry has minimal cost — is pinned by every
subsequent step together with the heap bound, so that entry is final for the
rest of the search.  Without the side condition a wrapped candidate can
overwrite a settled entry (see the counterexample). -/
theorem c9_dist_monotone_and_final (g : List (List Edge)) (s goal : Nat)
    (heap : List State) (dist : List Nat) (hg : ValidGraph g)
    (hlen : dist.length = g.length)
    (hpos : ∀ x ∈ heap, x.position < g.length) :
    (∀ h2 d2, dijkstraIter g goal heap dist = .cont h2 d2 →
      ∀ v, dAt d2 v ≤ dAt dist v) ∧
    (∀ r h2 d2, dijkstra_step g goal heap dist = some (r, h2, d2) →
      ∀ v, dAt d2 v ≤ dAt dist v) ∧
    (SmallCosts g → SearchInv g s goal heap dist →
      ∀ u c, dAt dist u = c → (∀ x ∈ heap, c ≤ x.cost) →
        (∀ h2 d2, dijkstraIter g goal heap dist = .cont h2 d2 →
          dAt d2 u = c ∧ ∀ x ∈ h2, c ≤ x.cost) ∧
        (∀ r h2 d2, dijkstra_step g goal heap dist = some (r, h2, d2) →
          dAt d2 u = c ∧ ∀ x ∈ h2, c ≤ x.cost)) ∧
    (SmallCosts g → SearchInv g s goal heap dist →
      ∀ m rest, heapPop heap = some (m, rest) → dAt dist m.position = m.cost →
        (∀ h2 d2, dijkstraIter g goal heap dist = .cont h2 d2 →
          dAt d2 m.position = m.cost ∧ ∀ x ∈ h2, m.cost ≤ x.cost) ∧
        (∀ r h2 d2, dijkstra_step g goal heap dist = some (r, h2, d2) →
          dAt d2 m.position = m.cost ∧ ∀ x ∈ h2, m.cost ≤ x.cost)) := by
  have htg_of : ∀ m : State, m.position < g.length →
      ∀ e ∈ gAt g m.position, e.node < dist.length := by
    intro m hm e he
    rw [hlen]
    exact valid_target hg hm he
  have hiter_mono : ∀ h2 d2, dijkstraIter g goal heap dist = .cont h2 d2 →
      ∀ v, dAt d2 v ≤ dAt dist v := by
    intro h2 d2 hit v
    obtain ⟨m, rest, hp, hmt, hcase⟩ := dijkstraIter_cont_cases hg hlen hpos hit
    rcases hcase with ⟨-, -, rfl⟩ | ⟨-, heq⟩
    · exact le_refl _
    · exact relax_mono heq v
  have hstep_mono : ∀ r h2 d2, dijkstra_step g goal heap dist = some (r, h2, d2) →
      ∀ v, dAt d2 v ≤ dAt dist v := by
    intro r h2 d2 hstep v
    rcases dijkstra_step_cases g goal heap dist hg hlen hpos with
      ⟨-, hc⟩ | ⟨m, rest, hp, -, hc⟩ | ⟨m, rest, h2', d2', hp, -, heq, hc⟩
    · rw [hstep] at hc
      simp at hc
      rw [hc.2.2]
    · rw [hstep] at hc
      simp at hc
      rw [hc.2.2]
    · rw [hstep] at hc
      simp at hc
      rw [hc.2.2]
      exact relax_mono heq v
  have hpin : SmallCosts g → SearchInv g s goal heap dist →
      ∀ u c, dAt dist u = c → (∀ x ∈ heap, c ≤ x.cost) →
      (∀ h2 d2, dijkstraIter g goal heap dist = .cont h2 d2 →
        dAt d2 u = c ∧ ∀ x ∈ h2, c ≤ x.cost) ∧
      (∀ r h2 d2, dijkstra_step g goal heap dist = some (r, h2, d2) →
        dAt d2 u = c ∧ ∀ x ∈ h2, c ≤ x.cost) := by
    intro hsmall hinv u c hub hlb
    constructor
    · intro h2 d2 hit
      obtain ⟨m, rest, hp, hmt, hcase⟩ := dijkstraIter_cont_cases hg hlen hpos hit
      have hmmem := (heapPop_min hp).1
      rcases hcase with ⟨-, rfl, rfl⟩ | ⟨-, heq⟩
      · exact ⟨hub, fun x hx => hlb x (rest_subset hp x hx)⟩
      · exact relax_pin (htg_of m (hpos m hmmem))
          (inv_cand_lt hinv hsmall hmmem) heq hub
          (fun x hx => hlb x (rest_subset hp x hx)) (hlb m hmmem)
    · intro r h2 d2 hstep
      rcases dijkstra_step_cases g goal heap dist hg hlen hpos with
        ⟨-, hc⟩ | ⟨m, rest, hp, -, hc⟩ | ⟨m, rest, h2', d2', hp, -, heq, hc⟩
      · rw [hstep] at hc
        simp at hc
        rw [hc.2.1, hc.2.2]
        exact ⟨hub, hlb⟩
      · rw [hstep] at hc
        simp at hc
        rw [hc.2.1, hc.2.2]
        exact ⟨hub, fun x hx => hlb x (rest_subset hp x hx)⟩
      · rw [hstep] at hc
        simp at hc
        have hmmem := (heapPop_min hp).1
        have hres := relax_pin (htg_of m (hpos m hmmem))
          (inv_cand_lt hinv hsmall hmmem) heq hub
          (fun x hx => hlb x (rest_subset hp x hx)) (hlb m hmmem)
        rw [hc.2.1, hc.2.2]
        exact hres
  refine ⟨hiter_mono, hstep_mono, hpin, ?_⟩
  intro hsmall hinv m rest hp hfresh
  exact hpin hsmall hinv m.position m.cost hfresh (heapPop_min hp).2.2.1

/-- C9, witness: on the two-node graph `[[(1,3)], []]` with heap `[(0,0)]` and
table `[0, MAX]`, the iteration relaxes the edge; the unconditional
monotonicity and — after discharging the invariant and the no-overflow
condition — the pinning conclusions of the claim theorem evaluate
concretely. -/
theorem c9_witness :
    dijkstraIter [[⟨1, 3⟩], []] 5 [⟨0, 0⟩] [0, usizeMax] = .cont [⟨3, 1⟩] [0, 3] ∧
    dAt [0, 3] 1 ≤ dAt [0, usizeMax] 1 ∧ dAt [0, 3] 0 = 0 ∧
    ∀ x ∈ [(⟨3, 1⟩ : State)], 0 ≤ x.cost := by
  have hat : ∀ v, 2 ≤ v → dAt [0, usizeMax] v = usizeMax := by
    intro v hv
    match v, hv with
    | v + 2, _ => exact dAt_of_ge (by simp)
  have h1M : dAt [0, usizeMax] 1 = usizeMax := rfl
  have hinv : SearchInv [[⟨1, 3⟩], []] 0 5 [⟨0, 0⟩] [0, usizeMax] := by
    refine ⟨by decide, rfl, ?_, ?_, by decide, ?_, by decide, by decide, ?_, ?_,
      ?_, ?_⟩
    · intro v
      match v with
      | 0 => decide
      | 1 => decide
      | v + 2 => exact le_of_eq (hat (v + 2) (by omega))
    · intro v hfin
      match v with
      | 0 => exact Reach.refl
      | 1 => rw [h1M] at hfin; omega
      | v + 2 => rw [hat (v + 2) (by omega)] at hfin; omega
    · intro x hx
      simp at hx
      rw [hx]
      exact Reach.refl
    · intro v hv hvt hfin
      match v, hv with
      | 0, _ => exact .inl (List.mem_singleton.mpr rfl)
      | 1, _ => rw [h1M] at hfin; omega
    · intro hfin
      rw [hat 5 (by omega)] at hfin
      omega
    · intro v hfin
      match v with
      | 0 => exact ⟨[0], DomPath.refl rfl⟩
      | 1 => rw [h1M] at hfin; omega
      | v + 2 => rw [hat (v + 2) (by omega)] at hfin; omega
    · intro x hx
      simp at hx
      rw [hx]
      exact ⟨[0], DomPath.refl rfl⟩
  have h := c9_dist_monotone_and_final [[⟨1, 3⟩], []] 0 5 [⟨0, 0⟩] [0, usizeMax]
    (by decide) (by decide) (by decide)
  have hiter : dijkstraIter [[⟨1, 3⟩], []] 5 [⟨0, 0⟩] [0, usizeMax] =
      .cont [⟨3, 1⟩] [0, 3] := by decide
  have hpin := (h.2.2.1 (by decide) hinv 0 0 (by decide) (by decide)).1 _ _ hiter
  exact ⟨hiter, h.1 _ _ hiter 1, hpin.1, hpin.2⟩

/-- A graph with one huge edge (`2 → 1` of cost `usize::MAX - 1`) on which a
`usize` addition in the search wraps. -/
def owGraph : List (List Edge) :=
  [[⟨1, 1⟩, ⟨2, 2⟩], [], [⟨1, usizeMax - 1⟩], []]

/-- C9, counterexample to the finality half of the claim as stated: in the
run of `dijkstra owGraph 0 3` (its first three loop iterations from the
initial state are traced here), node 1 is popped at the second iteration
with cost 1 equal to its table entry — settling it — yet the third iteration
relaxes the edge `2 → 1` of cost `usize::MAX - 1`, whose candidate
`2 + (usize::MAX - 1)` wraps to `0 < 1` and overwrites the settled entry
(a debug build panics on the same addition instead).  Distance values still
only decrease, but a settled entry is not final. -/
theorem c9_cex_overflow_overwrites_settled :
    dijkstraIter owGraph 3 [⟨0, 0⟩] [0, usizeMax, usizeMax, usizeMax] =
      .cont [⟨2, 2⟩, ⟨1, 1⟩] [0, 1, 2, usizeMax] ∧
    heapPop [⟨2, 2⟩, ⟨1, 1⟩] = some (⟨1, 1⟩, [⟨2, 2⟩]) ∧
    dAt [0, 1, 2, usizeMax] 1 = 1 ∧
    dijkstraIter owGraph 3 [⟨2, 2⟩, ⟨1, 1⟩] [0, 1, 2, usizeMax] =
      .cont [⟨2, 2⟩] [0, 1, 2, usizeMax] ∧
    dijkstraIter owGraph 3 [⟨2, 2⟩] [0, 1, 2, usizeMax] =
      .cont [⟨0, 1⟩] [0, 0, 2, usizeMax] ∧
    dAt [0, 0, 2, usizeMax] 1 ≠ 1 ∧
    dijkstra owGraph 0 3 = .ok none :=
  ⟨by decide, by decide, by decide, by decide, by decide, by decide, by decide⟩

/-! ## Claim C6: stale entries -/

/-- A relaxation pass in which no edge passes the improvement test leaves heap
and table unchanged. -/
theorem relaxEdges_noop {c : Nat} : ∀ {es : List Edge} {h : List State}
    {d : List Nat}, (∀ e ∈ es, e.node < d.length) →
    (∀ e ∈ es, ¬ (wrapU (c + e.cost) < dAt d e.node)) →
    relaxEdges c es h d = some (h, d)
  | [], h, d, _, _ => rfl
  | e :: es, h, d, htg, hno => by
    have hget : d.get? e.node = some (dAt d e.node) := get?_eq_dAt (htg e (by simp))
    simp only [relaxEdges, hget, if_neg (hno e (by simp))]
    exact relaxEdges_noop (fun e2 he2 => htg e2 (by simp [he2]))
      (fun e2 he2 => hno e2 (by simp [he2]))

/-- Under the search invariant, the relaxation from a stale popped entry makes
no change: its node was already relaxed at a strictly smaller table value. -/
theorem stale_noop {g : List (List Edge)} {s goal : Nat} {heap : List State}
    {dist : List Nat} {m : State} {rest : List State}
    (hg : ValidGraph g) (hsmall : SmallCosts g)
    (hinv : SearchInv g s goal heap dist)
    (hp : heapPop heap = some (m, rest)) (hmt : m.position ≠ goal)
    (hstale : dAt dist m.position < m.cost) :
    relaxEdges m.cost (gAt g m.position) rest dist = some (rest, dist) := by
  obtain ⟨hm, -, hmin, -⟩ := heapPop_min hp
  have hband : ∀ e ∈ gAt g m.position, m.cost + e.cost < 2 ^ 64 :=
    inv_cand_lt hinv hsmall hm
  have hmpos : m.position < g.length := hinv.heap_pos m hm
  have hfin : dAt dist m.position < usizeMax :=
    lt_of_lt_of_le hstale (le_of_lt (hinv.heap_fin m hm))
  have hrelx : ∀ e ∈ gAt g m.position,
      dAt dist e.node ≤ dAt dist m.position + e.cost := by
    rcases hinv.key m.position hmpos hmt hfin with hmem | hrelx
    · have h1 : m.cost ≤ dAt dist m.position := hmin _ hmem
      omega
    · exact hrelx
  refine relaxEdges_noop ?_ ?_
  · intro e he
    rw [hinv.len]
    exact valid_target hg hmpos he
  · intro e he
    rw [wrapU_eq (hband e he)]
    have := hrelx e he
    omega

/-- C6, amended: a popped non-goal entry whose cost strictly exceeds its
current distance-table value changes nothing — in `dijkstra`'s loop
unconditionally (the explicit staleness test discards it), and in
`dijkstra_step` (used by `dijkstra_bidir`, which lacks that test and walks
the node's edges) provided no `usize` addition can wrap: under the search
invariant and the no-overflow side condition every improvement test fails,
so no edge is relaxed and nothing is pushed, and the resulting state is
exactly the heap minus the popped entry with the table untouched.  With an
overflowing edge cost a stale pop of `dijkstra_step` CAN relax and push
(see the counterexample). -/
theorem c6_stale_pop_discards (g : List (List Edge)) (s goal : Nat)
    (heap : List State) (dist : List Nat) (m : State) (rest : List State)
    (hp : heapPop heap = some (m, rest)) (hmt : m.position ≠ goal)
    (hstale : dAt dist m.position < m.cost) :
    (dist.length = g.length → m.position < g.length →
      dijkstraIter g goal heap dist = .cont rest dist) ∧
    (ValidGraph g → SmallCosts g → SearchInv g s goal heap dist →
      dijkstra_step g goal heap dist = some (none, rest, dist)) := by
  constructor
  · intro hlen hmpos
    have hget : dist[m.position]? = some (dAt dist m.position) :=
      getElem?_eq_dAt (by rw [hlen]; exact hmpos)
    simp [dijkstraIter, hp, hmt, hget, hstale]
  · intro hg hsmall hinv
    have hmpos : m.position < g.length := hinv.heap_pos m (heapPop_min hp).1
    simp [dijkstra_step, hp, hmt, g_getElem?_eq_gAt hmpos,
      stale_noop hg hsmall hinv hp hmt hstale]

/-- C6, witness: a concrete invariant state with a stale top entry (cost 5 for
node 1, whose table entry is already 3) on a graph with small costs: both
engines discard it. -/
theorem c6_witness :
    dijkstraIter [[⟨1, 3⟩, ⟨1, 5⟩], [], []] 2 [⟨5, 1⟩] [0, 3, usizeMax] =
      .cont [] [0, 3, usizeMax] ∧
    dijkstra_step [[⟨1, 3⟩, ⟨1, 5⟩], [], []] 2 [⟨5, 1⟩] [0, 3, usizeMax] =
      some (none, [], [0, 3, usizeMax]) := by
  have hr3 : Reach [[⟨1, 3⟩, ⟨1, 5⟩], [], []] 0 1 3 := by
    have := Reach.snoc (g := [[⟨1, 3⟩, ⟨1, 5⟩], [], []]) (s := 0) (u := 0) (c := 0)
      ⟨1, 3⟩ (by decide) (by decide) Reach.refl
    simpa using this
  have hr5 : Reach [[⟨1, 3⟩, ⟨1, 5⟩], [], []] 0 1 5 := by
    have := Reach.snoc (g := [[⟨1, 3⟩, ⟨1, 5⟩], [], []]) (s := 0) (u := 0) (c := 0)
      ⟨1, 5⟩ (by decide) (by decide) Reach.refl
    simpa using this
  have hdp3 : DomPath [[⟨1, 3⟩, ⟨1, 5⟩], [], []] 0 [0, 3, usizeMax] 1 (0 + 3)
      ([0] ++ [1]) :=
    DomPath.snoc ⟨1, 3⟩ (by decide) (by decide) (by decide) (by decide)
      (DomPath.refl rfl)
  have hdp5 : DomPath [[⟨1, 3⟩, ⟨1, 5⟩], [], []] 0 [0, 3, usizeMax] 1 (0 + 5)
      ([0] ++ [1]) :=
    DomPath.snoc ⟨1, 5⟩ (by decide) (by decide) (by decide) (by decide)
      (DomPath.refl rfl)
  have hat : ∀ v, 2 ≤ v → dAt [0, 3, usizeMax] v = usizeMax := by
    intro v hv
    match v, hv with
    | 2, _ => rfl
    | v + 3, _ => exact dAt_of_ge (by simp)
  have hinv : SearchInv [[⟨1, 3⟩, ⟨1, 5⟩], [], []] 0 2 [⟨5, 1⟩] [0, 3, usizeMax] := by
    refine ⟨by decide, rfl, ?_, ?_, by decide, ?_, by decide, by decide, ?_, ?_,
      ?_, ?_⟩
    · intro v
      match v with
      | 0 => decide
      | 1 => decide
      | v + 2 => exact le_of_eq (hat (v + 2) (by omega))
    · intro v hfin
      match v with
      | 0 => exact Reach.refl
      | 1 => exact hr3
      | v + 2 =>
        rw [hat (v + 2) (by omega)] at hfin
        omega
    · intro x hx
      simp at hx
      rw [hx]
      exact hr5
    · intro v hv hvt hfin
      match v, hv with
      | 0, _ =>
        right
        intro e he
        simp only [gAt, List.getD] at he
        simp at he
        rcases he with rfl | rfl <;> decide
      | 1, _ =>
        right
        intro e he
        simp [gAt, List.getD] at he
      | 2, _ => exact absurd rfl hvt
    · intro hfin
      rw [hat 2 (by omega)] at hfin
      omega
    · intro v hfin
      match v with
      | 0 => exact ⟨[0], DomPath.refl rfl⟩
      | 1 => exact ⟨[0] ++ [1], hdp3⟩
      | v + 2 =>
        rw [hat (v + 2) (by omega)] at hfin
        omega
    · intro x hx
      simp at hx
      rw [hx]
      exact ⟨[0] ++ [1], hdp5⟩
  have h := c6_stale_pop_discards [[⟨1, 3⟩, ⟨1, 5⟩], [], []] 0 2 [⟨5, 1⟩]
    [0, 3, usizeMax] ⟨5, 1⟩ [] rfl (by decide) (by decide)
  exact ⟨h.1 (by decide) (by decide), h.2 (by decide) (by decide) hinv⟩

/-- A graph on which a stale pop of `dijkstra_step` wraps: node 1 first gets
the direct label 5, then the cheaper label 2 via node 2, so the entry `(5,1)`
goes stale; node 1's only edge costs `usize::MAX - 4`, and `5 + (MAX - 4)`
wraps to 0.  Nodes 5–9 only feed the goal 4 so that the backward frontier
keeps the loop alive long enough. -/
def gStale : List (List Edge) :=
  [[⟨1, 5⟩, ⟨2, 1⟩], [⟨3, usizeMax - 4⟩], [⟨1, 1⟩], [], [],
   [⟨4, 1⟩], [⟨4, 2⟩], [⟨4, 3⟩], [⟨4, 4⟩], [⟨4, 5⟩]]

/-- The inversion of `gStale`, as the source computes it. -/
def gStaleInv : List (List Edge) :=
  [[], [⟨0, 5⟩, ⟨2, 1⟩], [⟨0, 1⟩], [⟨1, usizeMax - 4⟩],
   [⟨5, 1⟩, ⟨6, 2⟩, ⟨7, 3⟩, ⟨8, 4⟩, ⟨9, 5⟩], [], [], [], [], []]

/-- C6, counterexample to the claim as stated: in the run of
`dijkstra_bidir gStale 0 4` (the first six half-rounds are traced here from
the initial state), the seventh half-round's `dijkstra_step` pops the STALE
entry `(5, 1)` — its cost 5 strictly exceeds the table entry `dist_f[1] = 2`
— and, far from discarding it, relaxes node 1's edge: the candidate
`5 + (usize::MAX - 4)` wraps to `0 < usize::MAX - 2`, so it pushes `(0, 3)`
and overwrites the table (a debug build panics on the same addition).  The
popped stale entry is thus not merely dropped, refuting the claim for
`dijkstra_step`. -/
theorem c6_cex_overflow_stale_pop_pushes :
    invert_adjecency_list gStale = some gStaleInv ∧
    halfF gStale 4 ⟨(List.replicate 10 usizeMax).set 0 0,
        (List.replicate 10 usizeMax).set 4 0, [⟨0, 0⟩], [⟨0, 4⟩]⟩ =
      .cont ⟨[0, 5, 1, usizeMax, usizeMax, usizeMax, usizeMax, usizeMax,
          usizeMax, usizeMax], (List.replicate 10 usizeMax).set 4 0,
        [⟨1, 2⟩, ⟨5, 1⟩], [⟨0, 4⟩]⟩ ∧
    halfB gStaleInv 0 ⟨[0, 5, 1, usizeMax, usizeMax, usizeMax, usizeMax,
        usizeMax, usizeMax, usizeMax], (List.replicate 10 usizeMax).set 4 0,
        [⟨1, 2⟩, ⟨5, 1⟩], [⟨0, 4⟩]⟩ =
      .cont ⟨[0, 5, 1, usizeMax, usizeMax, usizeMax, usizeMax, usizeMax,
          usizeMax, usizeMax],
        [usizeMax, usizeMax, usizeMax, usizeMax, 0, 1, 2, 3, 4, 5],
        [⟨1, 2⟩, ⟨5, 1⟩], [⟨5, 9⟩, ⟨4, 8⟩, ⟨3, 7⟩, ⟨2, 6⟩, ⟨1, 5⟩]⟩ ∧
    halfF gStale 4 ⟨[0, 5, 1, usizeMax, usizeMax, usizeMax, usizeMax, usizeMax,
        usizeMax, usizeMax],
        [usizeMax, usizeMax, usizeMax, usizeMax, 0, 1, 2, 3, 4, 5],
        [⟨1, 2⟩, ⟨5, 1⟩], [⟨5, 9⟩, ⟨4, 8⟩, ⟨3, 7⟩, ⟨2, 6⟩, ⟨1, 5⟩]⟩ =
      .cont ⟨[0, 2, 1, usizeMax, usizeMax, usizeMax, usizeMax, usizeMax,
          usizeMax, usizeMax],
        [usizeMax, usizeMax, usizeMax, usizeMax, 0, 1, 2, 3, 4, 5],
        [⟨2, 1⟩, ⟨5, 1⟩], [⟨5, 9⟩, ⟨4, 8⟩, ⟨3, 7⟩, ⟨2, 6⟩, ⟨1, 5⟩]⟩ ∧
    halfB gStaleInv 0 ⟨[0, 2, 1, usizeMax, usizeMax, usizeMax, usizeMax,
        usizeMax, usizeMax, usizeMax],
        [usizeMax, usizeMax, usizeMax, usizeMax, 0, 1, 2, 3, 4, 5],
        [⟨2, 1⟩, ⟨5, 1⟩], [⟨5, 9⟩, ⟨4, 8⟩, ⟨3, 7⟩, ⟨2, 6⟩, ⟨1, 5⟩]⟩ =
      .cont ⟨[0, 2, 1, usizeMax, usizeMax, usizeMax, usizeMax, usizeMax,
          usizeMax, usizeMax],
        [usizeMax, usizeMax, usizeMax, usizeMax, 0, 1, 2, 3, 4, 5],
        [⟨2, 1⟩, ⟨5, 1⟩], [⟨5, 9⟩, ⟨4, 8⟩, ⟨3, 7⟩, ⟨2, 6⟩]⟩ ∧
    halfF gStale 4 ⟨[0, 2, 1, usizeMax, usizeMax, usizeMax, usizeMax, usizeMax,
        usizeMax, usizeMax],
        [usizeMax, usizeMax, usizeMax, usizeMax, 0, 1, 2, 3, 4, 5],
        [⟨2, 1⟩, ⟨5, 1⟩], [⟨5, 9⟩, ⟨4, 8⟩, ⟨3, 7⟩, ⟨2, 6⟩]⟩ =
      .cont ⟨[0, 2, 1, usizeMax - 2, usizeMax, usizeMax, usizeMax, usizeMax,
          usizeMax, usizeMax],
        [usizeMax, usizeMax, usizeMax, usizeMax, 0, 1, 2, 3, 4, 5],
        [⟨usizeMax - 2, 3⟩, ⟨5, 1⟩], [⟨5, 9⟩, ⟨4, 8⟩, ⟨3, 7⟩, ⟨2, 6⟩]⟩ ∧
    halfB gStaleInv 0 ⟨[0, 2, 1, usizeMax - 2, usizeMax, usizeMax, usizeMax,
        usizeMax, usizeMax, usizeMax],
        [usizeMax, usizeMax, usizeMax, usizeMax, 0, 1, 2, 3, 4, 5],
        [⟨usizeMax - 2, 3⟩, ⟨5, 1⟩], [⟨5, 9⟩, ⟨4, 8⟩, ⟨3, 7⟩, ⟨2, 6⟩]⟩ =
      .cont ⟨[0, 2, 1, usizeMax - 2, usizeMax, usizeMax, usizeMax, usizeMax,
          usizeMax, usizeMax],
        [usizeMax, usizeMax, usizeMax, usizeMax, 0, 1, 2, 3, 4, 5],
        [⟨usizeMax - 2, 3⟩, ⟨5, 1⟩], [⟨5, 9⟩, ⟨4, 8⟩, ⟨3, 7⟩]⟩ ∧
    heapPop [⟨usizeMax - 2, 3⟩, ⟨5, 1⟩] =
      some ((⟨5, 1⟩ : State), [⟨usizeMax - 2, 3⟩]) ∧
    dAt [0, 2, 1, usizeMax - 2, usizeMax, usizeMax, usizeMax, usizeMax,
      usizeMax, usizeMax] 1 = 2 ∧
    dijkstra_step gStale 4 [⟨usizeMax - 2, 3⟩, ⟨5, 1⟩]
        [0, 2, 1, usizeMax - 2, usizeMax, usizeMax, usizeMax, usizeMax,
         usizeMax, usizeMax] =
      some (none, [⟨0, 3⟩, ⟨usizeMax - 2, 3⟩],
        [0, 2, 1, 0, usizeMax, usizeMax, usizeMax, usizeMax, usizeMax,
         usizeMax]) ∧
    ([0, 2, 1, 0, usizeMax, usizeMax, usizeMax, usizeMax, usizeMax, usizeMax] :
      List Nat) ≠
      [0, 2, 1, usizeMax - 2, usizeMax, usizeMax, usizeMax, usizeMax, usizeMax,
       usizeMax] ∧
    dijkstra_bidir gStale 0 4 = .ok none :=
  ⟨by decide, by decide, by decide, by decide, by decide, by decide, by decide,
   by decide, by decide, by decide, by decide, by decide⟩

/-- `dijkstra_step` preserves the search invariant when it does not return
(fresh pops by relaxation, stale pops as no-ops) and never increases the
measure; a pop from a non-empty heap without returning strictly decreases it. -/
theorem dijkstra_step_preserves {g : List (List Edge)} {s goal : Nat}
    {heap : List State} {dist : List Nat} {r : Option Nat} {h2 : List State}
    {d2 : List Nat} (hg : ValidGraph g) (hsmall : SmallCosts g)
    (hinv : SearchInv g s goal heap dist)
    (hstep : dijkstra_step g goal heap dist = some (r, h2, d2)) :
    (r = none → SearchInv g s goal h2 d2) ∧
    d2.sum + h2.length ≤ dist.sum + heap.length ∧
    (heap ≠ [] → r = none → d2.sum + h2.length < dist.sum + heap.length) := by
  rcases dijkstra_step_cases g goal heap dist hg
      (by rw [hinv.len]) (fun x hx => hinv.heap_pos x hx) with
    ⟨hemp, hc⟩ | ⟨m, rest, hp, hmgoal, hc⟩ | ⟨m, rest, h2', d2', hp, hmt, heq, hc⟩
  · rw [hstep] at hc
    simp at hc
    rw [hc.2.1, hc.2.2]
    exact ⟨fun _ => hinv, le_refl _, fun hne _ => absurd hemp hne⟩
  · rw [hstep] at hc
    simp at hc
    have hrlen := rest_length hp
    rw [hc.2.1, hc.2.2]
    refine ⟨fun hr => ?_, by omega, by omega⟩
    exact absurd (hc.1.symm.trans hr) (by simp)
  · rw [hstep] at hc
    simp at hc
    obtain ⟨hr, hh2, hd2⟩ := hc
    have hrlen := rest_length hp
    by_cases hstale : dAt dist m.position < m.cost
    · have hnoop := stale_noop hg hsmall hinv hp hmt hstale
      rw [heq] at hnoop
      simp at hnoop
      subst hh2 hd2
      rw [hnoop.1, hnoop.2]
      exact ⟨fun _ => stale_preserves hinv hp hstale, by omega, fun _ _ => by omega⟩
    · obtain ⟨h2x, d2x, heqx, hinvx, hmeasx⟩ :=
        fresh_relax_preserves hg hsmall hinv hp hmt hstale
      rw [heq] at heqx
      simp at heqx
      subst hh2 hd2
      rw [heqx.1, heqx.2]
      exact ⟨fun _ => hinvx, by omega, fun _ _ => by omega⟩

/-! ## Claim C7: adjacency-list inversion -/

theorem gAt_set_self {g : List (List Edge)} {v : Nat} {l : List Edge}
    (h : v < g.length) : gAt (g.set v l) v = l := by
  simp [gAt, List.getD_eq_get?, List.getElem?_set_eq_of_lt _ h]

theorem gAt_set_ne {g : List (List Edge)} {v w : Nat} {l : List Edge}
    (h : v ≠ w) : gAt (g.set v l) w = gAt g w := by
  simp [gAt, List.getD_eq_get?, List.getElem?_set_ne h]

theorem gAt_replicate {n v : Nat} : gAt (List.replicate n ([] : List Edge)) v = [] := by
  simp only [gAt, List.getD_eq_get?, List.get?_eq_getElem?, List.getElem?_replicate]
  split <;> rfl

/-- The reversed edges that the inversion loop starting at outer index `i` over
the remaining lists `ls` appends to bucket `v`, in order. -/
def invContrib (i : Nat) (ls : List (List Edge)) (v : Nat) : List Edge :=
  match ls with
  | [] => []
  | l :: rest =>
    l.filterMap (fun e => if e.node = v then some ⟨i, e.cost⟩ else none) ++
      invContrib (i + 1) rest v

/-- Inner inversion loop: succeeds when all targets are in range, preserves
the bucket count, and appends the reversal of each edge to its bucket. -/
theorem invertInner_ex (i : Nat) : ∀ (es : List Edge) (acc : List (List Edge)),
    (∀ e ∈ es, e.node < acc.length) →
    ∃ acc2, invertInner i es acc = some acc2 ∧ acc2.length = acc.length ∧
      ∀ v, gAt acc2 v = gAt acc v ++
        es.filterMap (fun e => if e.node = v then some ⟨i, e.cost⟩ else none) := by
  intro es
  induction es with
  | nil =>
    intro acc _
    exact ⟨acc, rfl, rfl, fun v => by simp⟩
  | cons e es ih =>
    intro acc htg
    have hnode : e.node < acc.length := htg e (by simp)
    have hget : acc.get? e.node = some (gAt acc e.node) := g_get?_eq_gAt hnode
    obtain ⟨acc2, heq, hlen, hbuck⟩ := ih (acc.set e.node (gAt acc e.node ++ [⟨i, e.cost⟩]))
      (by intro e2 he2; simpa using htg e2 (by simp [he2]))
    refine ⟨acc2, ?_, by simpa using hlen, ?_⟩
    · simp only [invertInner, hget]
      exact heq
    · intro v
      rw [hbuck v, List.filterMap_cons]
      by_cases hv : e.node = v
      · subst hv
        rw [gAt_set_self hnode]
        simp only [if_pos rfl]
        rw [List.append_assoc]
        rfl
      · rw [gAt_set_ne hv]
        simp only [if_neg hv]

/-- Outer inversion loop: bucket `v` of the result extends bucket `v` of the
accumulator with exactly the reversed edges of the processed lists. -/
theorem invertOuter_ex : ∀ (ls : List (List Edge)) (i : Nat) (acc : List (List Edge)),
    (∀ l ∈ ls, ∀ e ∈ l, e.node < acc.length) →
    ∃ acc2, invertOuter ls i acc = some acc2 ∧ acc2.length = acc.length ∧
      ∀ v, gAt acc2 v = gAt acc v ++ invContrib i ls v := by
  intro ls
  induction ls with
  | nil =>
    intro i acc _
    exact ⟨acc, rfl, rfl, fun v => by simp [invContrib]⟩
  | cons l rest ih =>
    intro i acc htg
    obtain ⟨acc1, heq1, hlen1, hbuck1⟩ := invertInner_ex i l acc
      (fun e he => htg l (by simp) e he)
    obtain ⟨acc2, heq2, hlen2, hbuck2⟩ := ih (i + 1) acc1
      (by intro l2 hl2 e he; rw [hlen1]; exact htg l2 (by simp [hl2]) e he)
    refine ⟨acc2, ?_, hlen2.trans hlen1, ?_⟩
    · simp only [invertOuter, heq1]
      exact heq2
    · intro v
      rw [hbuck2 v, hbuck1 v, invContrib, List.append_assoc]

theorem count_inner (v i u c : Nat) : ∀ l : List Edge,
    (l.filterMap (fun e => if e.node = v then some ⟨i, e.cost⟩ else none)).count
        (⟨u, c⟩ : Edge) =
      if i = u then l.count (⟨v, c⟩ : Edge) else 0 := by
  intro l
  induction l with
  | nil => simp
  | cons e l ih =>
    rcases e with ⟨en, ec⟩
    by_cases hv : en = v
    · subst hv
      have hred : (List.filterMap
          (fun e => if e.node = en then some (⟨i, e.cost⟩ : Edge) else none)
          (⟨en, ec⟩ :: l)) =
          ⟨i, ec⟩ :: l.filterMap
            (fun e => if e.node = en then some ⟨i, e.cost⟩ else none) := by
        simp [List.filterMap_cons]
      rw [hred, List.count_cons, ih, List.count_cons]
      simp only [beq_iff_eq, Edge.mk.injEq]
      by_cases hiu : i = u
      · by_cases hec : ec = c
        · simp [hiu, hec]
        · simp [hiu, hec]
      · simp [hiu]
    · have hred : (List.filterMap
          (fun e => if e.node = v then some (⟨i, e.cost⟩ : Edge) else none)
          (⟨en, ec⟩ :: l)) =
          l.filterMap (fun e => if e.node = v then some ⟨i, e.cost⟩ else none) := by
        simp [List.filterMap_cons, hv]
      rw [hred, ih, List.count_cons]
      simp only [beq_iff_eq, Edge.mk.injEq]
      split_ifs <;> omega

theorem invContrib_count (v u c : Nat) : ∀ (ls : List (List Edge)) (i : Nat),
    (invContrib i ls v).count (⟨u, c⟩ : Edge) =
      if i ≤ u ∧ u - i < ls.length then (ls.getD (u - i) []).count (⟨v, c⟩ : Edge)
      else 0 := by
  intro ls
  induction ls with
  | nil =>
    intro i
    simp [invContrib]
  | cons l rest ih =>
    intro i
    rw [invContrib, List.count_append, count_inner, ih (i + 1)]
    rcases Nat.lt_trichotomy i u with h | h | h
    · rw [if_neg (by omega)]
      have h1 : u - i = (u - (i + 1)) + 1 := by omega
      by_cases h2 : i + 1 ≤ u ∧ u - (i + 1) < rest.length
      · rw [if_pos h2, if_pos (by simp; omega), h1, List.getD_cons_succ]
        omega
      · rw [if_neg h2, if_neg (by simp; omega)]
    · subst h
      rw [if_pos rfl, if_neg (by omega), if_pos (by simp), Nat.sub_self,
        List.getD_cons_zero]
      omega
    · rw [if_neg (by omega), if_neg (by omega), if_neg (by omega)]

theorem invContrib_mem (v : Nat) : ∀ (ls : List (List Edge)) (i : Nat) (x : Edge),
    x ∈ invContrib i ls v → i ≤ x.node ∧ x.node < i + ls.length := by
  intro ls
  induction ls with
  | nil =>
    intro i x hx
    simp [invContrib] at hx
  | cons l rest ih =>
    intro i x hx
    rw [invContrib] at hx
    rcases List.mem_append.mp hx with hx1 | hx2
    · obtain ⟨e, -, he⟩ := List.mem_filterMap.mp hx1
      by_cases hv : e.node = v
      · rw [if_pos hv] at he
        have hx' : x = ⟨i, e.cost⟩ := (Option.some.inj he).symm
        rw [hx']
        simp only [List.length_cons]
        omega
      · rw [if_neg hv] at he
        cases he
    · have := ih (i + 1) x hx2
      simp only [List.length_cons]
      omega

theorem invert_char {g : List (List Edge)} (hg : ValidGraph g) :
    ∃ gInv, invert_adjecency_list g = some gInv ∧ gInv.length = g.length ∧
      ∀ v, gAt gInv v = invContrib 0 g v := by
  obtain ⟨acc2, heq, hlen, hbuck⟩ := invertOuter_ex g 0 (List.replicate g.length [])
    (by intro l hl e he; simpa using hg l hl e he)
  refine ⟨acc2, heq, by simpa using hlen, ?_⟩
  intro v
  rw [hbuck v, gAt_replicate, List.nil_append]

theorem invert_count_swap {g gInv : List (List Edge)} (hg : ValidGraph g)
    (heq : invert_adjecency_list g = some gInv) :
    gInv.length = g.length ∧
    ∀ u v c : Nat, u < g.length →
      (gAt gInv v).count (⟨u, c⟩ : Edge) = (gAt g u).count (⟨v, c⟩ : Edge) := by
  obtain ⟨gInv', heq', hlen, hbuck⟩ := invert_char hg
  rw [heq] at heq'
  obtain rfl : gInv = gInv' := Option.some.inj heq'
  refine ⟨hlen, ?_⟩
  intro u v c hu
  rw [hbuck v, invContrib_count, if_pos ⟨Nat.zero_le u, by simpa using hu⟩]
  simp [gAt]

theorem invert_valid {g gInv : List (List Edge)} (hg : ValidGraph g)
    (heq : invert_adjecency_list g = some gInv) : ValidGraph gInv := by
  obtain ⟨gInv', heq', hlen, hbuck⟩ := invert_char hg
  rw [heq] at heq'
  obtain rfl : gInv = gInv' := Option.some.inj heq'
  intro l hl e he
  obtain ⟨k, hk⟩ := List.mem_iff_get?.mp hl
  have hklen : k < gInv.length := (List.get?_eq_some.mp hk).1
  have hlk : l = gAt gInv k := by
    have h2 := g_get?_eq_gAt hklen
    rw [hk] at h2
    exact Option.some.inj h2
  rw [hlk, hbuck k] at he
  have := invContrib_mem k g 0 e he
  omega

/-- Membership transfer along inversion: `(u, c) ∈ gInv[v]` iff `(v, c) ∈ g[u]`,
for in-range `u`. -/
theorem invert_mem_iff {g gInv : List (List Edge)} (hg : ValidGraph g)
    (heq : invert_adjecency_list g = some gInv) {u v c : Nat}
    (hu : u < g.length) :
    (⟨u, c⟩ : Edge) ∈ gAt gInv v ↔ (⟨v, c⟩ : Edge) ∈ gAt g u := by
  have hcount := (invert_count_swap hg heq).2 u v c hu
  constructor
  · intro hmem
    have h1 : 0 < (gAt gInv v).count (⟨u, c⟩ : Edge) := List.count_pos_iff.mpr hmem
    rw [hcount] at h1
    exact List.count_pos_iff.mp h1
  · intro hmem
    have h1 : 0 < (gAt g u).count (⟨v, c⟩ : Edge) := List.count_pos_iff.mpr hmem
    rw [← hcount] at h1
    exact List.count_pos_iff.mp h1

/-- C7: inversion succeeds on valid graphs, preserves the node count, and
contains `v → u` with cost `c` exactly as often as the input contains `u → v`
with cost `c`; applying it twice reproduces the edge multiset of every
adjacency bucket. -/
theorem c7_invert_multiset (g : List (List Edge)) (hg : ValidGraph g) :
    ∃ gInv, invert_adjecency_list g = some gInv ∧
      gInv.length = g.length ∧
      (∀ u v c : Nat, u < g.length → v < g.length →
        (gAt gInv v).count (⟨u, c⟩ : Edge) = (gAt g u).count (⟨v, c⟩ : Edge)) ∧
      ∃ gInv2, invert_adjecency_list gInv = some gInv2 ∧ gInv2.length = g.length ∧
        ∀ u v c : Nat, u < g.length → v < g.length →
          (gAt gInv2 u).count (⟨v, c⟩ : Edge) = (gAt g u).count (⟨v, c⟩ : Edge) := by
  obtain ⟨gInv, heq, hlen, -⟩ := invert_char hg
  have hswap := invert_count_swap hg heq
  have hvalid := invert_valid hg heq
  obtain ⟨gInv2, heq2, hlen2, -⟩ := invert_char hvalid
  have hswap2 := invert_count_swap hvalid heq2
  refine ⟨gInv, heq, hlen, fun u v c hu _ => hswap.2 u v c hu, gInv2, heq2,
    hlen2.trans hlen, ?_⟩
  intro u v c hu hv
  rw [hswap2.2 v u c (by omega), hswap.2 u v c hu]

/-- The concrete directed graph used by the repository's tests and §8 of the
specification. -/
def testGraph : List (List Edge) :=
  [[⟨2, 10⟩, ⟨1, 1⟩], [⟨3, 2⟩], [⟨1, 1⟩, ⟨3, 3⟩, ⟨4, 1⟩], [⟨0, 7⟩, ⟨4, 2⟩], []]

/-- C7, witness: the inversion theorem applied to the concrete test graph. -/
theorem c7_witness :
    ∃ gInv, invert_adjecency_list testGraph = some gInv ∧
      gInv.length = testGraph.length ∧
      (∀ u v c : Nat, u < testGraph.length → v < testGraph.length →
        (gAt gInv v).count (⟨u, c⟩ : Edge) = (gAt testGraph u).count (⟨v, c⟩ : Edge)) ∧
      ∃ gInv2, invert_adjecency_list gInv = some gInv2 ∧
        gInv2.length = testGraph.length ∧
        ∀ u v c : Nat, u < testGraph.length → v < testGraph.length →
          (gAt gInv2 u).count (⟨v, c⟩ : Edge) = (gAt testGraph u).count (⟨v, c⟩ : Edge) :=
  c7_invert_multiset testGraph (by decide)

/-! ## The edge-cost budget of the inverted graph -/

theorem bucketCost_contrib (v i : Nat) : ∀ l : List Edge,
    bucketCost (l.filterMap
      (fun e => if e.node = v then some ⟨i, e.cost⟩ else none)) = pc l v := by
  intro l
  induction l with
  | nil => rfl
  | cons e l ih =>
    by_cases hv : e.node = v
    · simp only [bucketCost, pc, List.filterMap_cons, if_pos hv, List.map_cons,
        List.sum_cons] at ih ⊢
      omega
    · simp only [bucketCost, pc, List.filterMap_cons, if_neg hv] at ih ⊢
      exact ih

theorem invContrib_cost (v : Nat) : ∀ (ls : List (List Edge)) (i : Nat),
    bucketCost (invContrib i ls v) = (ls.map (fun l => pc l v)).sum := by
  intro ls
  induction ls with
  | nil =>
    intro i
    simp [invContrib, bucketCost]
  | cons l rest ih =>
    intro i
    rw [invContrib]
    simp only [bucketCost, List.map_append, List.sum_append, List.map_cons,
      List.sum_cons]
    have h1 := bucketCost_contrib v i l
    have h2 := ih (i + 1)
    simp only [bucketCost] at h1 h2
    omega

theorem range_sum_map_swap (N : Nat) : ∀ ls : List (List Edge),
    (Finset.range N).sum (fun v => (ls.map (fun l => pc l v)).sum) =
      (ls.map (fun l => (Finset.range N).sum (fun v => pc l v))).sum := by
  intro ls
  induction ls with
  | nil => simp
  | cons l rest ih =>
    simp only [List.map_cons, List.sum_cons]
    rw [← ih, ← Finset.sum_add_distrib]

theorem range_sum_pc {N : Nat} : ∀ l : List Edge, (∀ e ∈ l, e.node < N) →
    (Finset.range N).sum (fun v => pc l v) = bucketCost l := by
  intro l
  induction l with
  | nil =>
    intro _
    simp [pc, bucketCost]
  | cons e l ih =>
    intro hl
    have hstep : ∀ v, pc (e :: l) v = (if e.node = v then e.cost else 0) + pc l v := by
      intro v
      simp only [pc, List.filterMap_cons]
      by_cases hv : e.node = v
      · rw [if_pos hv, if_pos hv, List.sum_cons]
      · rw [if_neg hv, if_neg hv, Nat.zero_add]
    rw [Finset.sum_congr rfl (fun v _ => hstep v), Finset.sum_add_distrib,
      Finset.sum_ite_eq, if_pos (Finset.mem_range.mpr (hl e (by simp))),
      ih (fun e2 he2 => hl e2 (by simp [he2]))]
    simp [bucketCost]

/-- Inversion preserves the total edge-cost budget: every reversed edge keeps
its cost, and each original edge lands in exactly one inverted bucket. -/
theorem edgeSum_invert {g gInv : List (List Edge)} (hg : ValidGraph g)
    (heq : invert_adjecency_list g = some gInv) : edgeSum gInv = edgeSum g := by
  obtain ⟨gInv2, heq2, hlen, hbuck⟩ := invert_char hg
  rw [heq] at heq2
  obtain rfl : gInv = gInv2 := Option.some.inj heq2
  calc edgeSum gInv
      = (Finset.range gInv.length).sum (fun v => bucketCost (gAt gInv v)) :=
        (edgeSum_eq_range gInv).symm
    _ = (Finset.range g.length).sum (fun v => bucketCost (gAt gInv v)) := by
        rw [hlen]
    _ = (Finset.range g.length).sum (fun v => (g.map (fun l => pc l v)).sum) :=
        Finset.sum_congr rfl (fun v _ => by rw [hbuck v, invContrib_cost])
    _ = (g.map (fun l => (Finset.range g.length).sum (fun v => pc l v))).sum :=
        range_sum_map_swap g.length g
    _ = (g.map bucketCost).sum := by
        refine congrArg List.sum (List.map_congr_left ?_)
        intro l hl
        exact range_sum_pc l (fun e he => hg l hl e he)
    _ = edgeSum g := rfl

/-! ## Paths through the inverted graph -/

theorem reach_trans {g : List (List Edge)} {s u v a b : Nat}
    (h1 : Reach g s u a) (h2 : Reach g u v b) : Reach g s v (a + b) := by
  induction h2 with
  | refl => simpa using h1
  | @snoc w cb e hw he hr ih =>
    have := Reach.snoc e hw he ih
    rwa [Nat.add_assoc] at this

theorem reach_single {g : List (List Edge)} {u : Nat} {e : Edge}
    (hu : u < g.length) (he : e ∈ gAt g u) : Reach g u e.node e.cost := by
  have := Reach.snoc e hu he Reach.refl
  simpa using this

/-- A path in the inverted graph from `t` to `v` is a path in the original
graph from `v` to `t` of the same cost. -/
theorem reach_inv_rev {g gInv : List (List Edge)} (hg : ValidGraph g)
    (heq : invert_adjecency_list g = some gInv) {t : Nat} :
    ∀ v c, Reach gInv t v c → Reach g v t c := by
  have hlen : gInv.length = g.length := (invert_count_swap hg heq).1
  have hgInv : ValidGraph gInv := invert_valid hg heq
  intro v c hr
  induction hr with
  | refl => exact Reach.refl
  | @snoc u cb e hu he ih hr =>
    obtain ⟨en, ec⟩ := e
    have hen : en < g.length := by
      have h1 : en < gInv.length := valid_target hgInv hu he
      omega
    have hmem : (⟨u, ec⟩ : Edge) ∈ gAt g en :=
      (invert_mem_iff hg heq hen).mp he
    have hstep : Reach g en u ec := by
      have := reach_single (e := ⟨u, ec⟩) hen hmem
      simpa using this
    have := reach_trans hstep hr
    rwa [Nat.add_comm ec cb] at this

/-! ## `check_stop` soundness -/

theorem dAt_of_get? {d : List Nat} {v a : Nat} (h : d.get? v = some a) :
    dAt d v = a := by
  rw [dAt, List.getD_eq_get?, h]
  rfl

theorem checkScan_some {df db : List Nat} {bd : Nat} : ∀ (k i r : Nat),
    checkScan df db bd i k = some (some r) →
    ∃ j, i ≤ j ∧ j < i + k ∧ dAt df j ≠ usizeMax ∧ dAt db j ≠ usizeMax ∧
      r = wrapU (dAt df j + dAt db j) ∧ wrapU (dAt df j + dAt db j) ≤ bd := by
  intro k
  induction k with
  | zero =>
    intro i r h
    simp [checkScan] at h
  | succ k ih =>
    intro i r h
    rw [checkScan] at h
    cases hdf : df.get? i with
    | none =>
      simp only [hdf] at h
      cases h
    | some a =>
      simp only [hdf] at h
      by_cases ha : a = usizeMax
      · rw [if_pos ha] at h
        obtain ⟨j, h1, h2, h3⟩ := ih (i + 1) r h
        exact ⟨j, by omega, by omega, h3⟩
      · rw [if_neg ha] at h
        cases hdb : db.get? i with
        | none =>
          simp only [hdb] at h
          cases h
        | some b =>
          simp only [hdb] at h
          by_cases hb : b = usizeMax
          · rw [if_pos hb] at h
            obtain ⟨j, h1, h2, h3⟩ := ih (i + 1) r h
            exact ⟨j, by omega, by omega, h3⟩
          · rw [if_neg hb] at h
            by_cases hbd : wrapU (a + b) ≤ bd
            · rw [if_pos hbd] at h
              simp at h
              refine ⟨i, le_refl i, by omega, ?_⟩
              rw [dAt_of_get? hdf, dAt_of_get? hdb]
              exact ⟨ha, hb, h.symm, hbd⟩
            · rw [if_neg hbd] at h
              obtain ⟨j, h1, h2, h3⟩ := ih (i + 1) r h
              exact ⟨j, by omega, by omega, h3⟩

theorem checkScan_ne_none {df db : List Nat} {bd : Nat}
    (hlen : df.length ≤ db.length) : ∀ (k i : Nat), i + k ≤ df.length →
    checkScan df db bd i k ≠ none := by
  intro k
  induction k with
  | zero =>
    intro i _
    simp [checkScan]
  | succ k ih =>
    intro i hik
    rw [checkScan]
    have hdf : df.get? i = some (dAt df i) := get?_eq_dAt (by omega)
    have hdb : db.get? i = some (dAt db i) := get?_eq_dAt (by omega)
    simp only [hdf, hdb]
    by_cases ha : dAt df i = usizeMax
    · rw [if_pos ha]
      exact ih (i + 1) (by omega)
    · rw [if_neg ha]
      by_cases hb : dAt db i = usizeMax
      · rw [if_pos hb]
        exact ih (i + 1) (by omega)
      · rw [if_neg hb]
        by_cases hbd : wrapU (dAt df i + dAt db i) ≤ bd
        · rw [if_pos hbd]
          simp
        · rw [if_neg hbd]
          exact ih (i + 1) (by omega)

theorem check_stop_ne_none {df db : List Nat} {pf pb : List State}
    (hlen : df.length ≤ db.length) : check_stop df db pf pb ≠ none := by
  unfold check_stop
  cases heapTop pf with
  | none => simp
  | some f =>
    cases heapTop pb with
    | none => simp
    | some b => exact checkScan_ne_none hlen df.length 0 (by omega)

/-- Whatever `check_stop` returns is the cost of an actual path from `s` to
`t`, provided the label sums it forms cannot wrap: the returned value is the
wrapped sum of a forward label (a path `s → i`) and a backward label (a path
`t → i` in the inverted graph, i.e. `i → t` in the original), and the
no-overflow hypothesis makes the wrap the exact sum. -/
theorem check_stop_sound {g gInv : List (List Edge)} {s t : Nat}
    {df db : List Nat} {pf pb : List State}
    (hg : ValidGraph g) (heq : invert_adjecency_list g = some gInv)
    (hdfle : ∀ v, dAt df v ≤ usizeMax) (hdble : ∀ v, dAt db v ≤ usizeMax)
    (hdfs : ∀ v, dAt df v < usizeMax → Reach g s v (dAt df v))
    (hdbs : ∀ v, dAt db v < usizeMax → Reach gInv t v (dAt db v))
    (hflow : ∀ v, dAt df v < usizeMax → dAt db v < usizeMax →
      dAt df v + dAt db v < 2 ^ 64)
    {r : Nat} (hres : check_stop df db pf pb = some (some r)) :
    Reach g s t r := by
  unfold check_stop at hres
  cases h1 : heapTop pf with
  | none => rw [h1] at hres; cases hres
  | some f =>
    rw [h1] at hres
    cases h2 : heapTop pb with
    | none => rw [h2] at hres; cases hres
    | some b =>
      rw [h2] at hres
      obtain ⟨j, -, -, hjf, hjb, hr, -⟩ := checkScan_some df.length 0 r hres
      have hjf2 : dAt df j < usizeMax := lt_of_le_of_ne (hdfle j) hjf
      have hjb2 : dAt db j < usizeMax := lt_of_le_of_ne (hdble j) hjb
      have hf : Reach g s j (dAt df j) := hdfs j hjf2
      have hb : Reach gInv t j (dAt db j) := hdbs j hjb2
      have hbrev : Reach g j t (dAt db j) := reach_inv_rev hg heq j _ hb
      rw [hr, wrapU_eq (hflow j hjf2 hjb2)]
      exact reach_trans hf hbrev

/-- The combined invariant of a `dijkstra_bidir` state: the forward pair
searches `g` from `s` short-circuiting on `t`; the backward pair searches the
inverted graph from `t` short-circuiting on `s`. -/
structure BInv (g gInv : List (List Edge)) (s t : Nat) (st : BState) : Prop where
  finv : SearchInv g s t st.prio_f st.dist_f
  binv : SearchInv gInv t s st.prio_b st.dist_b

/-- The decreasing measure of the bidirectional loop. -/
def bMeasure (st : BState) : Nat :=
  st.dist_f.sum + st.dist_b.sum + st.prio_f.length + st.prio_b.length

/-- Under the no-overflow side condition, a forward label plus a backward
label never wraps: each is bounded by its graph's edge-cost budget, and
inversion preserves the budget. -/
theorem binv_flow {g gInv : List (List Edge)} {s t : Nat}
    {heapf heapb : List State} {df db : List Nat}
    (hg : ValidGraph g) (hsmall : SmallCosts g)
    (heq : invert_adjecency_list g = some gInv)
    (hfinv : SearchInv g s t heapf df) (hbinv : SearchInv gInv t s heapb db) :
    ∀ v, dAt df v < usizeMax → dAt db v < usizeMax →
      dAt df v + dAt db v < 2 ^ 64 := by
  intro v h1 h2
  have ha := inv_label_le hfinv v h1
  have hb := inv_label_le hbinv v h2
  rw [edgeSum_invert hg heq] at hb
  have hM : usizeMax < 2 ^ 64 := usizeMax_lt_pow
  unfold SmallCosts at hsmall
  omega

/-- The forward half-round: it either returns the cost of an actual
`s → t` path, or continues in an invariant state without touching the
backward pair, strictly decreasing the measure when the forward frontier was
non-empty. -/
theorem halfF_spec {g gInv : List (List Edge)} {s t : Nat} {st : BState}
    (hg : ValidGraph g) (hsmall : SmallCosts g)
    (heq : invert_adjecency_list g = some gInv)
    (hB : BInv g gInv s t st) :
    (∃ r, halfF g t st = .ret r ∧ Reach g s t r) ∨
    (∃ st1, halfF g t st = .cont st1 ∧ BInv g gInv s t st1 ∧
      st1.prio_b = st.prio_b ∧ st1.dist_b = st.dist_b ∧
      bMeasure st1 ≤ bMeasure st ∧ (st.prio_f ≠ [] → bMeasure st1 < bMeasure st)) := by
  have hlenInv : gInv.length = g.length := (invert_count_swap hg heq).1
  rcases dijkstra_step_cases g t st.prio_f st.dist_f hg (by rw [hB.finv.len])
      (fun x hx => hB.finv.heap_pos x hx) with
    ⟨hemp, hstep⟩ | ⟨m, rest, hp, hmt, hstep⟩ |
    ⟨m, rest, h2', d2', hp, hmt, hrelax, hstep⟩
  · cases hcs : check_stop st.dist_f st.dist_b st.prio_f st.prio_b with
    | none =>
      exact absurd hcs (check_stop_ne_none (by rw [hB.finv.len, hB.binv.len, hlenInv]))
    | some o =>
      cases o with
      | some v =>
        refine .inl ⟨v, ?_, ?_⟩
        · simp only [halfF, hstep, hcs]
        · exact check_stop_sound hg heq hB.finv.dist_le hB.binv.dist_le
            hB.finv.dist_sound hB.binv.dist_sound
            (binv_flow hg hsmall heq hB.finv hB.binv) hcs
      | none =>
        refine .inr ⟨⟨st.dist_f, st.dist_b, st.prio_f, st.prio_b⟩, ?_, ?_, rfl, rfl,
          le_refl _, ?_⟩
        · simp only [halfF, hstep, hcs]
        · exact ⟨hB.finv, hB.binv⟩
        · intro hne
          exact absurd hemp hne
  · refine .inl ⟨m.cost, ?_, ?_⟩
    · simp only [halfF, hstep]
    · have := hB.finv.heap_sound m (heapPop_min hp).1
      rwa [hmt] at this
  · have hpres := dijkstra_step_preserves hg hsmall hB.finv hstep
    have hinv2 := hpres.1 rfl
    cases hcs : check_stop d2' st.dist_b h2' st.prio_b with
    | none =>
      exact absurd hcs (check_stop_ne_none (by rw [hinv2.len, hB.binv.len, hlenInv]))
    | some o =>
      cases o with
      | some v =>
        refine .inl ⟨v, ?_, ?_⟩
        · simp only [halfF, hstep, hcs]
        · exact check_stop_sound hg heq hinv2.dist_le hB.binv.dist_le
            hinv2.dist_sound hB.binv.dist_sound
            (binv_flow hg hsmall heq hinv2 hB.binv) hcs
      | none =>
        refine .inr ⟨⟨d2', st.dist_b, h2', st.prio_b⟩, ?_, ⟨hinv2, hB.binv⟩, rfl, rfl,
          ?_, ?_⟩
        · simp only [halfF, hstep, hcs]
        · have := hpres.2.1
          simp only [bMeasure]
          omega
        · intro hne
          have := hpres.2.2 (by
            intro hx
            rw [hx] at hp
            cases (heapPop_none_iff.mpr rfl).symm.trans hp) rfl
          simp only [bMeasure]
          omega

/-- The backward half-round, symmetrically: a returned value is the cost of an
actual `s → t` path (via path reversal through the inverted graph). -/
theorem halfB_spec {g gInv : List (List Edge)} {s t : Nat} {st : BState}
    (hg : ValidGraph g) (hsmall : SmallCosts g)
    (heq : invert_adjecency_list g = some gInv)
    (hB : BInv g gInv s t st) :
    (∃ r, halfB gInv s st = .ret r ∧ Reach g s t r) ∨
    (∃ st1, halfB gInv s st = .cont st1 ∧ BInv g gInv s t st1 ∧
      st1.prio_f = st.prio_f ∧ st1.dist_f = st.dist_f ∧
      bMeasure st1 ≤ bMeasure st ∧ (st.prio_b ≠ [] → bMeasure st1 < bMeasure st)) := by
  have hlenInv : gInv.length = g.length := (invert_count_swap hg heq).1
  have hgInv : ValidGraph gInv := invert_valid hg heq
  rcases dijkstra_step_cases gInv s st.prio_b st.dist_b hgInv (by rw [hB.binv.len])
      (fun x hx => hB.binv.heap_pos x hx) with
    ⟨hemp, hstep⟩ | ⟨m, rest, hp, hmt, hstep⟩ |
    ⟨m, rest, h2', d2', hp, hmt, hrelax, hstep⟩
  · cases hcs : check_stop st.dist_f st.dist_b st.prio_f st.prio_b with
    | none =>
      exact absurd hcs (check_stop_ne_none (by rw [hB.finv.len, hB.binv.len, hlenInv]))
    | some o =>
      cases o with
      | some v =>
        refine .inl ⟨v, ?_, ?_⟩
        · simp only [halfB, hstep, hcs]
        · exact check_stop_sound hg heq hB.finv.dist_le hB.binv.dist_le
            hB.finv.dist_sound hB.binv.dist_sound
            (binv_flow hg hsmall heq hB.finv hB.binv) hcs
      | none =>
        refine .inr ⟨⟨st.dist_f, st.dist_b, st.prio_f, st.prio_b⟩, ?_, ?_, rfl, rfl,
          le_refl _, ?_⟩
        · simp only [halfB, hstep, hcs]
        · exact ⟨hB.finv, hB.binv⟩
        · intro hne
          exact absurd hemp hne
  · refine .inl ⟨m.cost, ?_, ?_⟩
    · simp only [halfB, hstep]
    · have hb := hB.binv.heap_sound m (heapPop_min hp).1
      rw [hmt] at hb
      exact reach_inv_rev hg heq s m.cost hb
  · have hsmallInv : SmallCosts gInv := by
      unfold SmallCosts
      rw [edgeSum_invert hg heq]
      exact hsmall
    have hpres := dijkstra_step_preserves hgInv hsmallInv hB.binv hstep
    have hinv2 := hpres.1 rfl
    cases hcs : check_stop st.dist_f d2' st.prio_f h2' with
    | none =>
      exact absurd hcs (check_stop_ne_none (by rw [hB.finv.len, hinv2.len, hlenInv]))
    | some o =>
      cases o with
      | some v =>
        refine .inl ⟨v, ?_, ?_⟩
        · simp only [halfB, hstep, hcs]
        · exact check_stop_sound hg heq hB.finv.dist_le hinv2.dist_le
            hB.finv.dist_sound hinv2.dist_sound
            (binv_flow hg hsmall heq hB.finv hinv2) hcs
      | none =>
        refine .inr ⟨⟨st.dist_f, d2', st.prio_f, h2'⟩, ?_, ⟨hB.finv, hinv2⟩, rfl, rfl,
          ?_, ?_⟩
        · simp only [halfB, hstep, hcs]
        · have := hpres.2.1
          simp only [bMeasure]
          omega
        · intro hne
          have := hpres.2.2 hne rfl
          simp only [bMeasure]
          omega

/-- The bidirectional loop, from any invariant state with sufficient fuel,
either finds the cost of an actual `s → t` path or exhausts (and in
particular never reaches the out-of-bounds or fuel-out outcomes). -/
theorem bidirLoop_spec {g gInv : List (List Edge)} {s t : Nat}
    (hg : ValidGraph g) (hsmall : SmallCosts g)
    (heq : invert_adjecency_list g = some gInv) :
    ∀ (fuel : Nat) (st : BState), BInv g gInv s t st → bMeasure st < fuel →
      (∃ r, bidirLoop g gInv s t fuel st = .found r ∧ Reach g s t r) ∨
      (∃ stf, bidirLoop g gInv s t fuel st = .exhausted stf) := by
  intro fuel
  induction fuel with
  | zero =>
    intro st _ hmeas
    omega
  | succ f ih =>
    intro st hB hmeas
    by_cases hguard : st.prio_b.isEmpty = false ∨ st.prio_b.isEmpty = false
    · have hbne : st.prio_b ≠ [] := by
        rcases hguard with h | h <;> (intro hx; rw [hx] at h; simp at h)
      rcases halfF_spec hg hsmall heq hB with ⟨r, hret, hreach⟩ |
          ⟨st1, hcont, hB1, hpb1, hdb1, hle1, -⟩
      · refine .inl ⟨r, ?_, hreach⟩
        rw [bidirLoop, if_pos hguard]
        simp only [hret]
      · rcases halfB_spec hg hsmall heq hB1 with ⟨r, hret2, hreach2⟩ |
            ⟨st2, hcont2, hB2, hpf2, hdf2, hle2, hstrict2⟩
        · refine .inl ⟨r, ?_, hreach2⟩
          rw [bidirLoop, if_pos hguard]
          simp only [hcont, hret2]
        · have hstrict : bMeasure st2 < bMeasure st1 :=
            hstrict2 (by rw [hpb1]; exact hbne)
          have hres := ih st2 hB2 (by omega)
          have hloopeq : bidirLoop g gInv s t (f + 1) st =
              bidirLoop g gInv s t f st2 := by
            rw [bidirLoop, if_pos hguard]
            simp only [hcont, hcont2]
          rw [hloopeq]
          exact hres
    · right
      refine ⟨st, ?_⟩
      rw [bidirLoop, if_neg hguard]

/-- The initial bidirectional state satisfies the combined invariant. -/
theorem bidir_init_inv {g gInv : List (List Edge)} {s t : Nat}
    (hg : ValidGraph g) (heq : invert_adjecency_list g = some gInv)
    (hs : s < g.length) (ht : t < g.length) :
    BInv g gInv s t
      ⟨(List.replicate g.length usizeMax).set s 0,
       (List.replicate g.length usizeMax).set t 0, [⟨0, s⟩], [⟨0, t⟩]⟩ := by
  have hlenInv : gInv.length = g.length := (invert_count_swap hg heq).1
  constructor
  · exact init_inv hs
  · have := init_inv (g := gInv) (s := t) (t := s) (by omega)
    rwa [hlenInv] at this

/-- `dijkstra_bidir` on valid in-range inputs always produces a normal result,
and a `Some v` result is the cost of an actual path from start to goal. -/
theorem dijkstra_bidir_spec (g : List (List Edge)) (s t : Nat)
    (hg : ValidGraph g) (hsmall : SmallCosts g) (hs : s < g.length)
    (ht : t < g.length) :
    (∃ r, dijkstra_bidir g s t = .ok r) ∧
    (∀ v, dijkstra_bidir g s t = .ok (some v) → Reach g s t v) := by
  obtain ⟨gInv, heq, -, -⟩ := invert_char hg
  have hB0 := bidir_init_inv hg heq hs ht
  have hmeas : bMeasure
      ⟨(List.replicate g.length usizeMax).set s 0,
       (List.replicate g.length usizeMax).set t 0, [⟨0, s⟩], [⟨0, t⟩]⟩ <
      bidirFuel
      ⟨(List.replicate g.length usizeMax).set s 0,
       (List.replicate g.length usizeMax).set t 0, [⟨0, s⟩], [⟨0, t⟩]⟩ := by
    simp [bMeasure, bidirFuel]
  have hspec := bidirLoop_spec hg hsmall heq _ _ hB0 hmeas
  have hd : dijkstra_bidir g s t =
      match bidirLoop g gInv s t
          (bidirFuel ⟨(List.replicate g.length usizeMax).set s 0,
            (List.replicate g.length usizeMax).set t 0, [⟨0, s⟩], [⟨0, t⟩]⟩)
          ⟨(List.replicate g.length usizeMax).set s 0,
            (List.replicate g.length usizeMax).set t 0, [⟨0, s⟩], [⟨0, t⟩]⟩ with
        | .found r => DOut.ok (some r)
        | .exhausted _ => DOut.ok none
        | .oob => DOut.oob
        | .fuelOut => DOut.fuelOut := by
    rw [dijkstra_bidir, heq]
    simp only [if_pos (And.intro hs ht)]
  rcases hspec with ⟨r, hres, hreach⟩ | ⟨stf, hres⟩
  · refine ⟨⟨some r, by rw [hd, hres]⟩, ?_⟩
    intro v hv
    rw [hd, hres] at hv
    have : r = v := by
      cases hv
      rfl
    exact this ▸ hreach
  · refine ⟨⟨none, by rw [hd, hres]⟩, ?_⟩
    intro v hv
    rw [hd, hres] at hv
    cases hv

/-! ## Claims C2, C3: the bidirectional engine -/

/-- The 6-node graph on which the two engines disagree: the shortest path
3 → 1 → 2 costs 12, but the first-qualifying-node scan of `check_stop` fires
on the decoy node 0 (labels 6 + 7 = 13) once the frontier bound jumps past
both sums. -/
def cxGraph : List (List Edge) :=
  [[⟨2, 7⟩], [⟨2, 3⟩], [], [⟨0, 6⟩, ⟨1, 9⟩], [⟨2, 1⟩], [⟨2, 2⟩]]

/-- C2, amended: whenever `dijkstra_bidir` returns `Some v` on a valid graph
with in-range endpoints whose edge costs cannot make a `usize` addition wrap
(`SmallCosts`), `v` is the total cost of an actual directed path from start
to goal (so the goal is reachable and `v` bounds the minimum from above); it
does not always equal `dijkstra`'s minimal cost. -/
theorem c2_bidir_some_is_path_cost (g : List (List Edge)) (s t : Nat)
    (hg : ValidGraph g) (hsmall : SmallCosts g) (hs : s < g.length)
    (ht : t < g.length) (v : Nat)
    (hres : dijkstra_bidir g s t = .ok (some v)) : Reach g s t v :=
  (dijkstra_bidir_spec g s t hg hsmall hs ht).2 v hres

/-- C2, counterexample: on `cxGraph` from node 3 to node 2, `dijkstra` returns
the true shortest cost 12 while `dijkstra_bidir` returns 13 — the two engines
do not agree. -/
theorem c2_cex_bidir_disagrees :
    dijkstra cxGraph 3 2 = .ok (some 12) ∧
    dijkstra_bidir cxGraph 3 2 = .ok (some 13) ∧
    dijkstra_bidir cxGraph 3 2 ≠ dijkstra cxGraph 3 2 := by
  exact ⟨by decide, by decide, by decide⟩

/-- C2, witness: the amended theorem at the concrete disagreement input —
13 is indeed the cost of an actual path from 3 to 2 (namely 3 → 0 → 2). -/
theorem c2_witness : Reach cxGraph 3 2 13 :=
  c2_bidir_some_is_path_cost cxGraph 3 2 (by decide) (by decide) (by decide)
    (by decide) 13 (by decide)

/-- C3, amended: whenever `check_stop` returns `Some v` from tables whose
finite entries are forward (resp. backward) path labels and whose pairwise
label sums cannot wrap, `v` is the cost of an actual start-to-goal path — an
upper bound on the true shortest cost, not necessarily the shortest itself.
(The scan compares and returns the wrapped sum `dist_f[i] + dist_b[i]`; the
no-overflow hypothesis makes it the exact sum.) -/
theorem c3_check_stop_sound_upper (g gInv : List (List Edge)) (s t : Nat)
    (df db : List Nat) (pf pb : List State) (r : Nat)
    (hg : ValidGraph g) (heq : invert_adjecency_list g = some gInv)
    (hdfle : ∀ v, dAt df v ≤ usizeMax) (hdble : ∀ v, dAt db v ≤ usizeMax)
    (hdfs : ∀ v, dAt df v < usizeMax → Reach g s v (dAt df v))
    (hdbs : ∀ v, dAt db v < usizeMax → Reach gInv t v (dAt db v))
    (hflow : ∀ v, dAt df v < usizeMax → dAt db v < usizeMax →
      dAt df v + dAt db v < 2 ^ 64)
    (hres : check_stop df db pf pb = some (some r)) :
    Reach g s t r :=
  check_stop_sound hg heq hdfle hdble hdfs hdbs hflow hres

/-- C3, counterexample: in the actual run of `dijkstra_bidir cxGraph 3 2`
(whose half-rounds are traced below from the initial state), the fifth
half-step's `check_stop` fires on node 0 and returns 13, yet a path of cost 12
exists — so the value returned by `check_stop` in a run is NOT always the true
shortest-path cost, and the whole run returns 13. -/
theorem c3_cex_check_stop_not_shortest :
    invert_adjecency_list cxGraph =
      some [[⟨3, 6⟩], [⟨3, 9⟩], [⟨0, 7⟩, ⟨1, 3⟩, ⟨4, 1⟩, ⟨5, 2⟩], [], [], []] ∧
    halfF cxGraph 2 ⟨(List.replicate 6 usizeMax).set 3 0,
        (List.replicate 6 usizeMax).set 2 0, [⟨0, 3⟩], [⟨0, 2⟩]⟩ =
      .cont ⟨[6, 9, usizeMax, 0, usizeMax, usizeMax],
        (List.replicate 6 usizeMax).set 2 0, [⟨9, 1⟩, ⟨6, 0⟩], [⟨0, 2⟩]⟩ ∧
    halfB [[⟨3, 6⟩], [⟨3, 9⟩], [⟨0, 7⟩, ⟨1, 3⟩, ⟨4, 1⟩, ⟨5, 2⟩], [], [], []] 3
        ⟨[6, 9, usizeMax, 0, usizeMax, usizeMax],
          (List.replicate 6 usizeMax).set 2 0, [⟨9, 1⟩, ⟨6, 0⟩], [⟨0, 2⟩]⟩ =
      .cont ⟨[6, 9, usizeMax, 0, usizeMax, usizeMax], [7, 3, 0, usizeMax, 1, 2],
        [⟨9, 1⟩, ⟨6, 0⟩], [⟨2, 5⟩, ⟨1, 4⟩, ⟨3, 1⟩, ⟨7, 0⟩]⟩ ∧
    halfF cxGraph 2 ⟨[6, 9, usizeMax, 0, usizeMax, usizeMax],
        [7, 3, 0, usizeMax, 1, 2], [⟨9, 1⟩, ⟨6, 0⟩],
        [⟨2, 5⟩, ⟨1, 4⟩, ⟨3, 1⟩, ⟨7, 0⟩]⟩ =
      .cont ⟨[6, 9, 13, 0, usizeMax, usizeMax], [7, 3, 0, usizeMax, 1, 2],
        [⟨13, 2⟩, ⟨9, 1⟩], [⟨2, 5⟩, ⟨1, 4⟩, ⟨3, 1⟩, ⟨7, 0⟩]⟩ ∧
    halfB [[⟨3, 6⟩], [⟨3, 9⟩], [⟨0, 7⟩, ⟨1, 3⟩, ⟨4, 1⟩, ⟨5, 2⟩], [], [], []] 3
        ⟨[6, 9, 13, 0, usizeMax, usizeMax], [7, 3, 0, usizeMax, 1, 2],
          [⟨13, 2⟩, ⟨9, 1⟩], [⟨2, 5⟩, ⟨1, 4⟩, ⟨3, 1⟩, ⟨7, 0⟩]⟩ =
      .cont ⟨[6, 9, 13, 0, usizeMax, usizeMax], [7, 3, 0, usizeMax, 1, 2],
        [⟨13, 2⟩, ⟨9, 1⟩], [⟨2, 5⟩, ⟨3, 1⟩, ⟨7, 0⟩]⟩ ∧
    dijkstra_step cxGraph 2 [⟨13, 2⟩, ⟨9, 1⟩] [6, 9, 13, 0, usizeMax, usizeMax] =
      some (none, [⟨12, 2⟩, ⟨13, 2⟩], [6, 9, 12, 0, usizeMax, usizeMax]) ∧
    check_stop [6, 9, 12, 0, usizeMax, usizeMax] [7, 3, 0, usizeMax, 1, 2]
        [⟨12, 2⟩, ⟨13, 2⟩] [⟨2, 5⟩, ⟨3, 1⟩, ⟨7, 0⟩] = some (some 13) ∧
    dijkstra_bidir cxGraph 3 2 = .ok (some 13) ∧
    Reach cxGraph 3 2 12 ∧ ¬ IsShortest cxGraph 3 2 13 := by
  have hr9 : Reach cxGraph 3 1 9 := by
    have := Reach.snoc (g := cxGraph) (s := 3) (u := 3) (c := 0) ⟨1, 9⟩
      (by decide) (by decide) Reach.refl
    simpa using this
  have hr12 : Reach cxGraph 3 2 12 := by
    have := Reach.snoc (g := cxGraph) (s := 3) (u := 1) (c := 9) ⟨2, 3⟩
      (by decide) (by decide) hr9
    simpa using this
  refine ⟨by decide, by decide, by decide, by decide, by decide, by decide,
    by decide, by decide, hr12, ?_⟩
  intro hshort
  have := hshort.2 12 hr12
  omega

/-- C3, witness: the amended theorem at a concrete sound state on the two-node
graph `[[(1,2)], []]`, where `check_stop` returns the exact path cost 2. -/
theorem c3_witness : Reach [[⟨1, 2⟩], []] 0 1 2 := by
  have hr2 : Reach [[⟨1, 2⟩], []] 0 1 2 := by
    have := Reach.snoc (g := [[⟨1, 2⟩], []]) (s := 0) (u := 0) (c := 0) ⟨1, 2⟩
      (by decide) (by decide) Reach.refl
    simpa using this
  have hrb : Reach [[], [⟨0, 2⟩]] 1 0 2 := by
    have := Reach.snoc (g := [[], [⟨0, 2⟩]]) (s := 1) (u := 1) (c := 0) ⟨0, 2⟩
      (by decide) (by decide) Reach.refl
    simpa using this
  refine c3_check_stop_sound_upper [[⟨1, 2⟩], []] [[], [⟨0, 2⟩]] 0 1
    [0, 2] [2, 0] [⟨2, 1⟩] [⟨2, 0⟩] 2 (by decide) (by decide) ?_ ?_ ?_ ?_ ?_
    (by decide)
  · intro v
    match v with
    | 0 => decide
    | 1 => decide
    | v + 2 => exact le_of_eq (dAt_of_ge (by simp))
  · intro v
    match v with
    | 0 => decide
    | 1 => decide
    | v + 2 => exact le_of_eq (dAt_of_ge (by simp))
  · intro v hfin
    match v with
    | 0 => exact Reach.refl
    | 1 => exact hr2
    | v + 2 => rw [dAt_of_ge (by simp)] at hfin; omega
  · intro v hfin
    match v with
    | 0 => exact hrb
    | 1 => exact Reach.refl
    | v + 2 => rw [dAt_of_ge (by simp)] at hfin; omega
  · intro v h1 h2
    match v with
    | 0 => decide
    | 1 => decide
    | v + 2 => rw [dAt_of_ge (by simp)] at h1; omega

/-! ## Claim C10: in-bounds safety and totality -/

/-- The overflow-agnostic skeleton invariant: the table length matches the
graph and every heap entry names an in-range node.  It involves no cost
arithmetic, so wrapping additions preserve it. -/
structure SlimInv (g : List (List Edge)) (heap : List State)
    (dist : List Nat) : Prop where
  len : dist.length = g.length
  heap_pos : ∀ x ∈ heap, x.position < g.length

/-- A wrap-agnostic relaxation summary: the pass succeeds, keeps the table
length, pushes only edge targets, and never increases the measure (every
write passes the strict improvement test on the wrapped candidate). -/
theorem relaxEdges_wspec (c : Nat) : ∀ (es : List Edge) (h : List State)
    (d : List Nat), (∀ e ∈ es, e.node < d.length) →
    ∃ h2 d2, relaxEdges c es h d = some (h2, d2) ∧
      d2.length = d.length ∧
      (∀ x ∈ h2, x ∈ h ∨ ∃ e ∈ es, x.position = e.node) ∧
      d2.sum + h2.length ≤ d.sum + h.length := by
  intro es
  induction es with
  | nil =>
    intro h d _
    exact ⟨h, d, rfl, rfl, fun x hx => .inl hx, le_refl _⟩
  | cons e es ih =>
    intro h d htg
    have hnode : e.node < d.length := htg e (by simp)
    have hget : d.get? e.node = some (dAt d e.node) := get?_eq_dAt hnode
    by_cases hlt : wrapU (c + e.cost) < dAt d e.node
    · obtain ⟨h2, d2, heq, hlen, hpos, hsum⟩ := ih
        (⟨wrapU (c + e.cost), e.node⟩ :: h) (d.set e.node (wrapU (c + e.cost)))
        (by
          intro e2 he2
          rw [List.length_set]
          exact htg e2 (by simp [he2]))
      refine ⟨h2, d2, ?_, ?_, ?_, ?_⟩
      · simp only [relaxEdges, hget, if_pos hlt]
        exact heq
      · rw [hlen, List.length_set]
      · intro x hx
        rcases hpos x hx with hx2 | ⟨e2, he2, hx2⟩
        · rcases List.mem_cons.mp hx2 with rfl | hx3
          · exact .inr ⟨e, by simp, rfl⟩
          · exact .inl hx3
        · exact .inr ⟨e2, by simp [he2], hx2⟩
      · have hs1 : (d.set e.node (wrapU (c + e.cost))).sum + 1 ≤ d.sum :=
          sum_set_succ_le hnode hlt
        have hh1 : ((⟨wrapU (c + e.cost), e.node⟩ : State) :: h).length =
            h.length + 1 := rfl
        omega
    · obtain ⟨h2, d2, heq, hlen, hpos, hsum⟩ := ih h d
        (fun e2 he2 => htg e2 (by simp [he2]))
      refine ⟨h2, d2, ?_, hlen, ?_, hsum⟩
      · simp only [relaxEdges, hget, if_neg hlt]
        exact heq
      · intro x hx
        rcases hpos x hx with hx2 | ⟨e2, he2, hx2⟩
        · exact .inl hx2
        · exact .inr ⟨e2, by simp [he2], hx2⟩

/-- One iteration of the `dijkstra` loop from a skeleton state returns or
continues in a skeleton state of strictly smaller measure, wrapping or not. -/
theorem dijkstraIter_slim {g : List (List Edge)} {t : Nat}
    {heap : List State} {dist : List Nat} (hg : ValidGraph g)
    (hinv : SlimInv g heap dist) :
    (∃ r, dijkstraIter g t heap dist = .ret (.ok r)) ∨
    (∃ h2 d2, dijkstraIter g t heap dist = .cont h2 d2 ∧ SlimInv g h2 d2 ∧
      d2.sum + h2.length < dist.sum + heap.length) := by
  cases hp : heapPop heap with
  | none =>
    exact .inl ⟨none, by simp [dijkstraIter, hp]⟩
  | some pr =>
    obtain ⟨m, rest⟩ := pr
    by_cases hmt : m.position = t
    · exact .inl ⟨some m.cost, by simp [dijkstraIter, hp, hmt]⟩
    · have hmpos : m.position < g.length := hinv.heap_pos m (heapPop_min hp).1
      have hget : dist[m.position]? = some (dAt dist m.position) :=
        getElem?_eq_dAt (by rw [hinv.len]; exact hmpos)
      have hrlen := rest_length hp
      have hrsub := rest_subset hp
      by_cases hstale : dAt dist m.position < m.cost
      · refine .inr ⟨rest, dist, ?_,
          ⟨hinv.len, fun x hx => hinv.heap_pos x (hrsub x hx)⟩, ?_⟩
        · simp [dijkstraIter, hp, hmt, hget, hstale]
        · omega
      · have htg : ∀ e ∈ gAt g m.position, e.node < dist.length := by
          intro e he
          rw [hinv.len]
          exact valid_target hg hmpos he
        obtain ⟨h2, d2, heq, hlen, hpos2, hsum⟩ :=
          relaxEdges_wspec m.cost (gAt g m.position) rest dist htg
        refine .inr ⟨h2, d2, ?_, ⟨hlen.trans hinv.len, ?_⟩, ?_⟩
        · simp [dijkstraIter, hp, hmt, hget, hstale, g_getElem?_eq_gAt hmpos, heq]
        · intro x hx
          rcases hpos2 x hx with hx2 | ⟨e, he, hx2⟩
          · exact hinv.heap_pos x (hrsub x hx2)
          · rw [hx2]
            exact valid_target hg hmpos he
        · omega

/-- Fuel-indexed totality of the `dijkstra` loop from skeleton states. -/
theorem dijkstraLoop_slim {g : List (List Edge)} {t : Nat}
    (hg : ValidGraph g) :
    ∀ (fuel : Nat) (heap : List State) (dist : List Nat), SlimInv g heap dist →
      dist.sum + heap.length < fuel →
      ∃ r, dijkstraLoop g t fuel heap dist = .ok r := by
  intro fuel
  induction fuel with
  | zero =>
    intro heap dist _ hmeas
    omega
  | succ f ih =>
    intro heap dist hinv hmeas
    rcases dijkstraIter_slim (t := t) hg hinv with
        ⟨r, hit⟩ | ⟨h2, d2, hit, hinv2, hmeas2⟩
    · exact ⟨r, by simp [dijkstraLoop, hit]⟩
    · have hloop : dijkstraLoop g t (f + 1) heap dist =
          dijkstraLoop g t f h2 d2 := by
        simp [dijkstraLoop, hit]
      rw [hloop]
      exact ih h2 d2 hinv2 (by omega)

/-- One `dijkstra_step` from a skeleton state always succeeds and preserves
the skeleton, wrapping or not; a pop without a direct hit strictly decreases
the measure. -/
theorem dijkstra_step_slim {g : List (List Edge)} {t : Nat}
    {heap : List State} {dist : List Nat} (hg : ValidGraph g)
    (hinv : SlimInv g heap dist) :
    ∃ r h2 d2, dijkstra_step g t heap dist = some (r, h2, d2) ∧
      SlimInv g h2 d2 ∧ d2.sum + h2.length ≤ dist.sum + heap.length ∧
      (heap ≠ [] → r = none → d2.sum + h2.length < dist.sum + heap.length) := by
  cases hp : heapPop heap with
  | none =>
    refine ⟨none, heap, dist, ?_, hinv, le_refl _,
      fun hne _ => absurd (heapPop_none_iff.mp hp) hne⟩
    simp [dijkstra_step, hp]
  | some pr =>
    obtain ⟨m, rest⟩ := pr
    have hrlen := rest_length hp
    have hrsub := rest_subset hp
    by_cases hmt : m.position = t
    · refine ⟨some m.cost, rest, dist, ?_,
        ⟨hinv.len, fun x hx => hinv.heap_pos x (hrsub x hx)⟩, by omega, ?_⟩
      · simp [dijkstra_step, hp, hmt]
      · intro _ hr
        cases hr
    · have hmpos : m.position < g.length := hinv.heap_pos m (heapPop_min hp).1
      have htg : ∀ e ∈ gAt g m.position, e.node < dist.length := by
        intro e he
        rw [hinv.len]
        exact valid_target hg hmpos he
      obtain ⟨h2, d2, heq, hlen, hpos2, hsum⟩ :=
        relaxEdges_wspec m.cost (gAt g m.position) rest dist htg
      refine ⟨none, h2, d2, ?_, ⟨hlen.trans hinv.len, ?_⟩, by omega,
        fun _ _ => by omega⟩
      · simp [dijkstra_step, hp, hmt, g_getElem?_eq_gAt hmpos, heq]
      · intro x hx
        rcases hpos2 x hx with hx2 | ⟨e, he, hx2⟩
        · exact hinv.heap_pos x (hrsub x hx2)
        · rw [hx2]
          exact valid_target hg hmpos he

/-- The skeleton invariant of a bidirectional state. -/
structure BSlim (g gInv : List (List Edge)) (st : BState) : Prop where
  fs : SlimInv g st.prio_f st.dist_f
  bs : SlimInv gInv st.prio_b st.dist_b

/-- The forward half-round from a skeleton state, wrapping or not: it returns
or continues in a skeleton state, never reaching the out-of-bounds branch. -/
theorem halfF_slim {g gInv : List (List Edge)} {t : Nat} {st : BState}
    (hg : ValidGraph g) (hlenInv : gInv.length = g.length)
    (hB : BSlim g gInv st) :
    (∃ r, halfF g t st = .ret r) ∨
    (∃ st1, halfF g t st = .cont st1 ∧ BSlim g gInv st1 ∧
      st1.prio_b = st.prio_b ∧ st1.dist_b = st.dist_b ∧
      bMeasure st1 ≤ bMeasure st ∧
      (st.prio_f ≠ [] → bMeasure st1 < bMeasure st)) := by
  obtain ⟨r, h2, d2, hstep, hinv2, hle, hstrict⟩ :=
    dijkstra_step_slim (t := t) hg hB.fs
  cases r with
  | some v =>
    exact .inl ⟨v, by simp only [halfF, hstep]⟩
  | none =>
    cases hcs : check_stop d2 st.dist_b h2 st.prio_b with
    | none =>
      exact absurd hcs (check_stop_ne_none (by rw [hinv2.len, hB.bs.len, hlenInv]))
    | some o =>
      cases o with
      | some v =>
        exact .inl ⟨v, by simp only [halfF, hstep, hcs]⟩
      | none =>
        refine .inr ⟨⟨d2, st.dist_b, h2, st.prio_b⟩, ?_, ⟨hinv2, hB.bs⟩, rfl, rfl,
          ?_, ?_⟩
        · simp only [halfF, hstep, hcs]
        · simp only [bMeasure]
          omega
        · intro hne
          have := hstrict hne rfl
          simp only [bMeasure]
          omega

/-- The backward half-round from a skeleton state, symmetrically. -/
theorem halfB_slim {g gInv : List (List Edge)} {s : Nat} {st : BState}
    (hgInv : ValidGraph gInv) (hlenInv : gInv.length = g.length)
    (hB : BSlim g gInv st) :
    (∃ r, halfB gInv s st = .ret r) ∨
    (∃ st1, halfB gInv s st = .cont st1 ∧ BSlim g gInv st1 ∧
      st1.prio_f = st.prio_f ∧ st1.dist_f = st.dist_f ∧
      bMeasure st1 ≤ bMeasure st ∧
      (st.prio_b ≠ [] → bMeasure st1 < bMeasure st)) := by
  obtain ⟨r, h2, d2, hstep, hinv2, hle, hstrict⟩ :=
    dijkstra_step_slim (t := s) hgInv hB.bs
  cases r with
  | some v =>
    exact .inl ⟨v, by simp only [halfB, hstep]⟩
  | none =>
    cases hcs : check_stop st.dist_f d2 st.prio_f h2 with
    | none =>
      exact absurd hcs (check_stop_ne_none (by rw [hB.fs.len, hinv2.len, hlenInv]))
    | some o =>
      cases o with
      | some v =>
        exact .inl ⟨v, by simp only [halfB, hstep, hcs]⟩
      | none =>
        refine .inr ⟨⟨st.dist_f, d2, st.prio_f, h2⟩, ?_, ⟨hB.fs, hinv2⟩, rfl, rfl,
          ?_, ?_⟩
        · simp only [halfB, hstep, hcs]
        · simp only [bMeasure]
          omega
        · intro hne
          have := hstrict hne rfl
          simp only [bMeasure]
          omega

/-- Fuel-indexed totality of the bidirectional loop from skeleton states,
wrapping or not: it finds a value or exhausts, never reaching the
out-of-bounds or fuel-out outcomes. -/
theorem bidirLoop_slim {g gInv : List (List Edge)} {s t : Nat}
    (hg : ValidGraph g) (hgInv : ValidGraph gInv)
    (hlenInv : gInv.length = g.length) :
    ∀ (fuel : Nat) (st : BState), BSlim g gInv st → bMeasure st < fuel →
      (∃ r, bidirLoop g gInv s t fuel st = .found r) ∨
      (∃ stf, bidirLoop g gInv s t fuel st = .exhausted stf) := by
  intro fuel
  induction fuel with
  | zero =>
    intro st _ hmeas
    omega
  | succ f ih =>
    intro st hB hmeas
    by_cases hguard : st.prio_b.isEmpty = false ∨ st.prio_b.isEmpty = false
    · have hbne : st.prio_b ≠ [] := by
        rcases hguard with h | h <;> (intro hx; rw [hx] at h; simp at h)
      rcases halfF_slim (t := t) hg hlenInv hB with ⟨r, hret⟩ |
          ⟨st1, hcont, hB1, hpb1, hdb1, hle1, -⟩
      · refine .inl ⟨r, ?_⟩
        rw [bidirLoop, if_pos hguard]
        simp only [hret]
      · rcases halfB_slim (s := s) hgInv hlenInv hB1 with ⟨r, hret2⟩ |
            ⟨st2, hcont2, hB2, hpf2, hdf2, hle2, hstrict2⟩
        · refine .inl ⟨r, ?_⟩
          rw [bidirLoop, if_pos hguard]
          simp only [hcont, hret2]
        · have hstrict : bMeasure st2 < bMeasure st1 :=
            hstrict2 (by rw [hpb1]; exact hbne)
          have hres := ih st2 hB2 (by omega)
          have hloopeq : bidirLoop g gInv s t (f + 1) st =
              bidirLoop g gInv s t f st2 := by
            rw [bidirLoop, if_pos hguard]
            simp only [hcont, hcont2]
          rw [hloopeq]
          exact hres
    · right
      refine ⟨st, ?_⟩
      rw [bidirLoop, if_neg hguard]

/-- C10: under the caller preconditions (valid edge targets, in-range start
and goal), `dijkstra`, `invert_adjecency_list` and `dijkstra_bidir` all
complete normally: no vector index reaches the out-of-bounds branch of the
embedding (and the fuel bound is never exhausted).  This holds for arbitrary
edge costs: indices always come from edge targets or the endpoints, and
termination rests on strict decreases that wrapping cannot break. -/
theorem c10_no_out_of_bounds (g : List (List Edge)) (s t : Nat)
    (hg : ValidGraph g) (hs : s < g.length) (ht : t < g.length) :
    (∃ r, dijkstra g s t = .ok r) ∧ (invert_adjecency_list g).isSome ∧
    (∃ r, dijkstra_bidir g s t = .ok r) := by
  obtain ⟨gInv, heq, hlenInv, -⟩ := invert_char hg
  have hgInv : ValidGraph gInv := invert_valid hg heq
  refine ⟨?_, ?_, ?_⟩
  · have hd : dijkstra g s t =
        dijkstraLoop g t (dijkstraFuel ((List.replicate g.length usizeMax).set s 0))
          [⟨0, s⟩] ((List.replicate g.length usizeMax).set s 0) := by
      unfold dijkstra
      simp [hs]
    have hmeas : ((List.replicate g.length usizeMax).set s 0).sum +
        ([(⟨0, s⟩ : State)]).length <
        dijkstraFuel ((List.replicate g.length usizeMax).set s 0) := by
      simp [dijkstraFuel]
    have hslim : SlimInv g [⟨0, s⟩] ((List.replicate g.length usizeMax).set s 0) := by
      refine ⟨by simp, ?_⟩
      intro x hx
      simp at hx
      rw [hx]
      exact hs
    obtain ⟨r, hres⟩ := dijkstraLoop_slim (t := t) hg _ _ _ hslim hmeas
    exact ⟨r, by rw [hd, hres]⟩
  · rw [heq]
    rfl
  · have hB0 : BSlim g gInv
        ⟨(List.replicate g.length usizeMax).set s 0,
         (List.replicate g.length usizeMax).set t 0, [⟨0, s⟩], [⟨0, t⟩]⟩ := by
      constructor
      · refine ⟨by simp, ?_⟩
        intro x hx
        simp at hx
        rw [hx]
        exact hs
      · refine ⟨by simp [hlenInv], ?_⟩
        intro x hx
        simp at hx
        rw [hx]
        show t < gInv.length
        omega
    have hmeas : bMeasure
        ⟨(List.replicate g.length usizeMax).set s 0,
         (List.replicate g.length usizeMax).set t 0, [⟨0, s⟩], [⟨0, t⟩]⟩ <
        bidirFuel
        ⟨(List.replicate g.length usizeMax).set s 0,
         (List.replicate g.length usizeMax).set t 0, [⟨0, s⟩], [⟨0, t⟩]⟩ := by
      simp [bMeasure, bidirFuel]
    have hd : dijkstra_bidir g s t =
        match bidirLoop g gInv s t
            (bidirFuel ⟨(List.replicate g.length usizeMax).set s 0,
              (List.replicate g.length usizeMax).set t 0, [⟨0, s⟩], [⟨0, t⟩]⟩)
            ⟨(List.replicate g.length usizeMax).set s 0,
              (List.replicate g.length usizeMax).set t 0, [⟨0, s⟩], [⟨0, t⟩]⟩ with
          | .found r => DOut.ok (some r)
          | .exhausted _ => DOut.ok none
          | .oob => DOut.oob
          | .fuelOut => DOut.fuelOut := by
      rw [dijkstra_bidir, heq]
      simp only [if_pos (And.intro hs ht)]
    rcases bidirLoop_slim (s := s) (t := t) hg hgInv hlenInv _ _ hB0 hmeas with
      ⟨r, hres⟩ | ⟨stf, hres⟩
    · exact ⟨some r, by rw [hd, hres]⟩
    · exact ⟨none, by rw [hd, hres]⟩

/-- C10, witness: at the concrete test graph with start 0 and goal 4. -/
theorem c10_witness :
    (∃ r, dijkstra testGraph 0 4 = .ok r) ∧
    (invert_adjecency_list testGraph).isSome ∧
    (∃ r, dijkstra_bidir testGraph 0 4 = .ok r) :=
  c10_no_out_of_bounds testGraph 0 4 (by decide) (by decide) (by decide)
